import Mathlib

/-!
Verification development for the pedagogical relational-algebra engine
(backend/core/evaluator.py and the raedu package).

The embedding models:
* cell values (strings, integers, booleans, absent) as `Value`;
* a pandas DataFrame carrying a `_prov` column as `DF` (visible columns in
  `cols`, per-row cells and provenance in `rows`, the `attrs["aliases"]`
  metadata in `aliases`);
* the condition evaluator `_cond_eval`: the regex based keyword folding and
  `=` rewriting, `_replace_identifiers`, and the delegation of the produced
  text to the host Python `eval` (modelled by lexing, parsing and evaluating
  the produced expression with Python semantics restricted to the value
  domain above — `and`/`or` return operands, `True == 1`, ordering a
  non-number raises, every raised exception makes `_cond_eval` return false);
* the relational operators of `eval` (`_product`, `_natural_join`,
  `_theta_join`, `_intersection`, `_division`, and the Selection, Projection,
  Union, Difference, Intersection and Division branches) together with the
  per-node trace records;
* the `_ToAST.expr` reducer of raedu/ra_parser.py over the node types that
  raedu/ra_ast.py actually defines.

Python dicts are modelled as association lists with in-place overwrite
(`dinsert`) and front-to-back lookup (`dget`); since `dinsert` never
duplicates a key, lookup order is immaterial.  Recursions that walk a string
by a dynamic amount carry an explicit fuel equal to the input length so that
every definition is structural and computes by `decide`.
-/

namespace RAedu

/-- A cell value: string, integer, boolean, or absent (Python `None`).
Floating point cells are outside the embedding. -/
inductive Value where
  | str (s : String)
  | int (n : Int)
  | bool (b : Bool)
  | null
deriving DecidableEq, Repr

/-- A DataFrame row: the visible cells (aligned with the frame columns) and
the `_prov` list of (base relation, base row index) tags. -/
structure Row where
  cells : List Value
  prov : List (String × Nat)
deriving DecidableEq, Repr

/-- A DataFrame as used by the evaluator: visible columns (the `_prov`
column is kept apart in each row), rows, and the `attrs["aliases"]`
mapping from alias name to the columns that originated from it. -/
structure DF where
  cols : List String
  rows : List Row
  aliases : List (String × List String)
deriving DecidableEq, Repr

/-- Python dict insertion `m[k] = v`: overwrite in place, else append. -/
def dinsert {α : Type} : List (String × α) → String → α → List (String × α)
  | [], k, v => [(k, v)]
  | (k', v') :: m, k, v =>
    if k' = k then (k', v) :: m else (k', v') :: dinsert m k v

/-- Python dict lookup `m.get(k)`. -/
def dget {α : Type} : List (String × α) → String → Option α
  | [], _ => Option.none
  | (k', v) :: m, k => if k' = k then some v else dget m k

/-- The row environment passed to the host evaluator. -/
abbrev Env := List (String × Value)

/-- `str.lower()` (character-wise, so that the kernel can evaluate it). -/
def strLower (s : String) : String :=
  String.mk (s.data.map Char.toLower)

/-- `str.strip()` (drop surrounding whitespace, character-wise). -/
def strTrim (s : String) : String :=
  String.mk (((s.data.dropWhile Char.isWhitespace).reverse.dropWhile Char.isWhitespace).reverse)

/-- `env_ci = {str(k).lower(): v for k, v in env.items()}` from `_cond_eval`. -/
def lowerKeys (env : Env) : Env :=
  env.foldl (fun m p => dinsert m (strLower p.1) p.2) []

/-! ### The condition normalisation of `_cond_eval` (lines 64–69) -/

/-- A regex word character (`\w` over the ASCII conditions in scope). -/
def isWordChar (c : Char) : Bool := c.isAlphanum || c == '_'

/-- Case-insensitive match of a (lowercase) keyword against a prefix of the
input; returns the remainder on success. -/
def matchKw : List Char → List Char → Option (List Char)
  | [], s => some s
  | _ :: _, [] => Option.none
  | k :: ks, c :: cs => if c.toLower == k then matchKw ks cs else Option.none

/-- One step of `re.sub(r"\bKW\b", rep, s, flags=IGNORECASE)`: replace each
keyword occurrence delimited by word boundaries.  `prevWord` records whether
the character before the current position is a word character.  The fuel is
at least the input length, so the zero-fuel branch is never reached. -/
def subKwF (kw rep : List Char) : Nat → Bool → List Char → List Char
  | 0, _, _ => []
  | _ + 1, _, [] => []
  | fuel + 1, prevWord, c :: cs =>
    match matchKw kw (c :: cs) with
    | some rest =>
      if !prevWord && (match rest with | [] => true | r :: _ => !isWordChar r) then
        -- the keyword ends in a word character, so the boundary state is true
        rep ++ subKwF kw rep fuel true rest
      else
        c :: subKwF kw rep fuel (isWordChar c) cs
    | Option.none => c :: subKwF kw rep fuel (isWordChar c) cs

/-- `re.sub(r"\bKW\b", rep, s, flags=IGNORECASE)` for a word keyword. -/
def subKw (kw rep : String) (s : String) : String :=
  String.mk (subKwF kw.data rep.data (s.data.length + 1) false s.data)

/-- Does the previous character block the `(?<![<>=!])` lookbehind? -/
def isEqBlockPrev : Option Char → Bool
  | some c => c == '<' || c == '>' || c == '=' || c == '!'
  | Option.none => false

/-- `re.sub(r"(?<![<>=!])=(?!=)", "==", s)`: double each standalone `=`. -/
def subEqAux : Option Char → List Char → List Char
  | _, [] => []
  | prev, c :: cs =>
    if c == '=' && !isEqBlockPrev prev && !(cs.head? == some '=') then
      '=' :: '=' :: subEqAux (some '=') cs
    else
      c :: subEqAux (some c) cs

/-- Lines 64–69 of `_cond_eval`: fold AND/OR/NOT to lowercase and rewrite
standalone `=` to `==`.  The regexes run over the whole string, string
literals included. -/
def normalizeCond (cond : String) : String :=
  let s1 := subKw "and" "and" cond
  let s2 := subKw "or" "or" s1
  let s3 := subKw "not" "not" s2
  String.mk (subEqAux Option.none s3.data)

/-! ### `_replace_identifiers` (lines 23–60) -/

/-- First character of `_IDENT_RE`. -/
def identStart (c : Char) : Bool := c.isAlpha || c == '_'

/-- Continuation character of `_IDENT_RE` (note: includes the dot). -/
def identChar (c : Char) : Bool := c.isAlpha || c.isDigit || c == '_' || c == '.'

/-- The quote scan of `_replace_identifiers`: consume a string literal body
after the opening quote, honouring backslash escapes; returns the body, a
closed flag, and the rest of the input. -/
def scanStrBody (quote : Char) : List Char → (List Char × Bool × List Char)
  | [] => ([], false, [])
  | [c] => if c == quote then ([], true, []) else ([c], false, [])
  | c :: c2 :: cs =>
    if c == '\\' then
      let r := scanStrBody quote cs
      (c :: c2 :: r.1, r.2.1, r.2.2)
    else if c == quote then ([], true, c2 :: cs)
    else
      let r := scanStrBody quote (c2 :: cs)
      (c :: r.1, r.2.1, r.2.2)

/-- A fragment of the Python expression text built by `_replace_identifiers`:
a copied string literal, an `env.get(key)` call, a passed-through keyword,
or a single copied character. -/
inductive PyTok where
  | strLit (quote : Char) (body : List Char) (closed : Bool)
  | envGet (key : String)
  | kw (s : String)
  | ch (c : Char)
deriving DecidableEq, Repr

/-- The scanning loop of `_replace_identifiers`, producing the fragments of
the Python source it emits.  Fuel is at least the input length. -/
def replIdF : Nat → List Char → List PyTok
  | 0, _ => []
  | _ + 1, [] => []
  | fuel + 1, c :: cs =>
    if c == '\'' || c == '"' then
      let r := scanStrBody c cs
      PyTok.strLit c r.1 r.2.1 :: replIdF fuel r.2.2
    else if identStart c then
      let tokRest := cs.takeWhile identChar
      let rest := cs.dropWhile identChar
      let lowered := String.mk ((c :: tokRest).map Char.toLower)
      (if lowered == "and" || lowered == "or" || lowered == "not" then PyTok.kw lowered
       else if lowered == "true" then PyTok.kw "True"
       else if lowered == "false" then PyTok.kw "False"
       else PyTok.envGet lowered) :: replIdF fuel rest
    else
      PyTok.ch c :: replIdF fuel cs

/-- `_replace_identifiers` as the fragment list of the emitted Python text. -/
def replaceIdentifiers (s : String) : List PyTok :=
  replIdF (s.data.length + 1) s.data

/-! ### The host `builtins.eval` on the emitted text

`_cond_eval` hands the produced string to Python `eval` with empty builtins
and `env` bound.  Every identifier has been rewritten to `env.get(...)`, so
the text is generated by a small expression grammar; we model its lexing,
parsing (Python precedence: `or` < `and` < `not` < comparisons < `+`/`-` <
`*` < unary minus) and evaluation.  `Option.none` stands for a raised
exception (SyntaxError or TypeError), which `_cond_eval` turns into `False`.
Chained comparisons are modelled left-associatively and `/`, `%`, floats and
string repetition are modelled as errors; no claim exercises them. -/

/-- Decode a Python string literal body (backslash escapes). -/
def decodeEsc : List Char → List Char
  | [] => []
  | ['\\'] => ['\\']
  | '\\' :: c :: cs =>
    (if c == '\'' || c == '"' || c == '\\' then [c]
     else if c == 'n' then ['\n']
     else if c == 't' then ['\t']
     else ['\\', c]) ++ decodeEsc cs
  | c :: cs => c :: decodeEsc cs

/-- A Python token of the emitted expression text. -/
inductive Tok where
  | intLit (n : Nat)
  | strLit (s : String)
  | envGet (key : String)
  | kwAnd | kwOr | kwNot | kwTrue | kwFalse
  | opEq | opNe | opLt | opLe | opGt | opGe
  | opAdd | opSub | opMul
  | lparen | rparen
deriving DecidableEq, Repr

def digitVal (c : Char) : Nat := c.toNat - '0'.toNat

def isSpaceChar (c : Char) : Bool := c == ' ' || c == '\t' || c == '\n' || c == '\r'

/-- Accumulate a run of digit characters into a numeral. -/
def lexNumF : Nat → Nat → List PyTok → (Nat × List PyTok)
  | 0, acc, ts => (acc, ts)
  | fuel + 1, acc, PyTok.ch c :: ts =>
    if c.isDigit then lexNumF fuel (acc * 10 + digitVal c) ts else (acc, PyTok.ch c :: ts)
  | _ + 1, acc, ts => (acc, ts)

/-- Is the next fragment the character `=` (the lookahead of the lexer)? -/
def chHeadEq (ts : List PyTok) : Bool :=
  match ts with
  | PyTok.ch c :: _ => c == '='
  | _ => false

/-- Drop the consumed lookahead fragment. -/
def chTail (ts : List PyTok) : List PyTok :=
  match ts with
  | _ :: r => r
  | [] => []

/-- Lex the emitted fragments into Python tokens; `Option.none` is a
SyntaxError.  Fuel is at least the fragment count. -/
def pyLexF : Nat → List PyTok → Option (List Tok)
  | 0, _ => Option.none
  | _ + 1, [] => some []
  | fuel + 1, t :: ts =>
    match t with
    | PyTok.strLit _ body closed =>
      if closed then (pyLexF fuel ts).map (fun l => Tok.strLit (String.mk (decodeEsc body)) :: l)
      else Option.none
    | PyTok.envGet k => (pyLexF fuel ts).map (fun l => Tok.envGet k :: l)
    | PyTok.kw s =>
      if s == "and" then (pyLexF fuel ts).map (fun l => Tok.kwAnd :: l)
      else if s == "or" then (pyLexF fuel ts).map (fun l => Tok.kwOr :: l)
      else if s == "not" then (pyLexF fuel ts).map (fun l => Tok.kwNot :: l)
      else if s == "True" then (pyLexF fuel ts).map (fun l => Tok.kwTrue :: l)
      else if s == "False" then (pyLexF fuel ts).map (fun l => Tok.kwFalse :: l)
      else Option.none
    | PyTok.ch c =>
      if isSpaceChar c then pyLexF fuel ts
      else if c.isDigit then
        (pyLexF fuel (lexNumF fuel (digitVal c) ts).2).map
          (fun l => Tok.intLit (lexNumF fuel (digitVal c) ts).1 :: l)
      else if c == '=' then
        if chHeadEq ts then (pyLexF fuel (chTail ts)).map (fun l => Tok.opEq :: l)
        else Option.none
      else if c == '!' then
        if chHeadEq ts then (pyLexF fuel (chTail ts)).map (fun l => Tok.opNe :: l)
        else Option.none
      else if c == '<' then
        if chHeadEq ts then (pyLexF fuel (chTail ts)).map (fun l => Tok.opLe :: l)
        else (pyLexF fuel ts).map (fun l => Tok.opLt :: l)
      else if c == '>' then
        if chHeadEq ts then (pyLexF fuel (chTail ts)).map (fun l => Tok.opGe :: l)
        else (pyLexF fuel ts).map (fun l => Tok.opGt :: l)
      else if c == '(' then (pyLexF fuel ts).map (fun l => Tok.lparen :: l)
      else if c == ')' then (pyLexF fuel ts).map (fun l => Tok.rparen :: l)
      else if c == '+' then (pyLexF fuel ts).map (fun l => Tok.opAdd :: l)
      else if c == '-' then (pyLexF fuel ts).map (fun l => Tok.opSub :: l)
      else if c == '*' then (pyLexF fuel ts).map (fun l => Tok.opMul :: l)
      else Option.none

/-- Is the next token a closing parenthesis? -/
def isRparen (ts : List Tok) : Bool :=
  match ts with
  | Tok.rparen :: _ => true
  | _ => false

/-- Drop the consumed token. -/
def tokTail (ts : List Tok) : List Tok :=
  match ts with
  | _ :: r => r
  | [] => []

/-- Comparison operators. -/
inductive Cmp where
  | eq | ne | lt | le | gt | ge
deriving DecidableEq, Repr

/-- The Python expression forms that can occur in the emitted text. -/
inductive PyExpr where
  | lit (v : Value)
  | envGet (key : String)
  | unNot (e : PyExpr)
  | unNeg (e : PyExpr)
  | orE (l r : PyExpr)
  | andE (l r : PyExpr)
  | cmpE (op : Cmp) (l r : PyExpr)
  | addE (l r : PyExpr)
  | subE (l r : PyExpr)
  | mulE (l r : PyExpr)
deriving DecidableEq, Repr

/-- Infix operators with Python precedence and constructor. -/
def binInfo : Tok → Option (Nat × (PyExpr → PyExpr → PyExpr))
  | Tok.kwOr => some (1, PyExpr.orE)
  | Tok.kwAnd => some (2, PyExpr.andE)
  | Tok.opEq => some (4, PyExpr.cmpE Cmp.eq)
  | Tok.opNe => some (4, PyExpr.cmpE Cmp.ne)
  | Tok.opLt => some (4, PyExpr.cmpE Cmp.lt)
  | Tok.opLe => some (4, PyExpr.cmpE Cmp.le)
  | Tok.opGt => some (4, PyExpr.cmpE Cmp.gt)
  | Tok.opGe => some (4, PyExpr.cmpE Cmp.ge)
  | Tok.opAdd => some (5, PyExpr.addE)
  | Tok.opSub => some (5, PyExpr.subE)
  | Tok.opMul => some (6, PyExpr.mulE)
  | _ => Option.none

/-- Precedence-climbing parser for the emitted expressions.  With
`Option.none` as accumulator it parses a prefix (literal, `env.get`, `not`,
unary minus, parenthesised expression) and continues in loop state; with
`some e` it folds infix operators of precedence at least `minPrec`. -/
def parseP : Nat → Nat → Option PyExpr → List Tok → Option (PyExpr × List Tok)
  | 0, _, _, _ => Option.none
  | fuel + 1, minPrec, Option.none, ts =>
    match ts with
    | Tok.kwNot :: r =>
      match parseP fuel 3 Option.none r with
      | some (e, r') => parseP fuel minPrec (some (PyExpr.unNot e)) r'
      | Option.none => Option.none
    | Tok.opSub :: r =>
      match parseP fuel 7 Option.none r with
      | some (e, r') => parseP fuel minPrec (some (PyExpr.unNeg e)) r'
      | Option.none => Option.none
    | Tok.intLit n :: r => parseP fuel minPrec (some (PyExpr.lit (Value.int (Int.ofNat n)))) r
    | Tok.strLit s :: r => parseP fuel minPrec (some (PyExpr.lit (Value.str s))) r
    | Tok.kwTrue :: r => parseP fuel minPrec (some (PyExpr.lit (Value.bool true))) r
    | Tok.kwFalse :: r => parseP fuel minPrec (some (PyExpr.lit (Value.bool false))) r
    | Tok.envGet k :: r => parseP fuel minPrec (some (PyExpr.envGet k)) r
    | Tok.lparen :: r =>
      match parseP fuel 0 Option.none r with
      | some (e, r') =>
        if isRparen r' then parseP fuel minPrec (some e) (tokTail r') else Option.none
      | Option.none => Option.none
    | _ => Option.none
  | fuel + 1, minPrec, some e, ts =>
    match ts with
    | [] => some (e, [])
    | t :: r =>
      match binInfo t with
      | some (prec, mk) =>
        if minPrec ≤ prec then
          match parseP fuel (prec + 1) Option.none r with
          | some (rhs, r') => parseP fuel minPrec (some (mk e rhs)) r'
          | Option.none => Option.none
        else some (e, ts)
      | Option.none => some (e, ts)

/-- Parse a full token list; anything left over is a SyntaxError. -/
def pyParse (ts : List Tok) : Option PyExpr :=
  match parseP (4 * ts.length + 8) 0 Option.none ts with
  | some (e, []) => some e
  | _ => Option.none

/-- Python int view: booleans are integers. -/
def toIntQ : Value → Option Int
  | Value.int n => some n
  | Value.bool b => some (if b then 1 else 0)
  | _ => Option.none

/-- Python truthiness of the modelled values. -/
def truthy : Value → Bool
  | Value.int n => n != 0
  | Value.str s => s != ""
  | Value.bool b => b
  | Value.null => false

/-- Python `==` on the modelled values (never raises). -/
def pyEq (a b : Value) : Bool :=
  match toIntQ a, toIntQ b with
  | some x, some y => x == y
  | _, _ =>
    match a, b with
    | Value.str s, Value.str t => s == t
    | Value.null, Value.null => true
    | _, _ => false

/-- Python ordering comparison; `Option.none` is a TypeError. -/
def pyOrd (a b : Value) : Option Ordering :=
  match toIntQ a, toIntQ b with
  | some x, some y => some (compare x y)
  | _, _ =>
    match a, b with
    | Value.str s, Value.str t => some (compare s t)
    | _, _ => Option.none

/-- Evaluate a comparison operator; `Option.none` is a TypeError. -/
def evalCmp (op : Cmp) (a b : Value) : Option Value :=
  match op with
  | Cmp.eq => some (Value.bool (pyEq a b))
  | Cmp.ne => some (Value.bool (!pyEq a b))
  | Cmp.lt => (pyOrd a b).map (fun o => Value.bool (o == Ordering.lt))
  | Cmp.le => (pyOrd a b).map (fun o => Value.bool (o != Ordering.gt))
  | Cmp.gt => (pyOrd a b).map (fun o => Value.bool (o == Ordering.gt))
  | Cmp.ge => (pyOrd a b).map (fun o => Value.bool (o != Ordering.lt))

/-- Python `+`: integer (and boolean) addition or string concatenation. -/
def pyAdd (a b : Value) : Option Value :=
  match toIntQ a, toIntQ b with
  | some x, some y => some (Value.int (x + y))
  | _, _ =>
    match a, b with
    | Value.str s, Value.str t => some (Value.str (s ++ t))
    | _, _ => Option.none

/-- Python `-` and `*` restricted to the integer domain. -/
def pyArith (f : Int → Int → Int) (a b : Value) : Option Value :=
  match toIntQ a, toIntQ b with
  | some x, some y => some (Value.int (f x y))
  | _, _ => Option.none

/-- Evaluate a parsed expression against the row environment; `Option.none`
is a raised exception.  `env.get` of a missing key yields Python `None`. -/
def evalPy (env : Env) : PyExpr → Option Value
  | PyExpr.lit v => some v
  | PyExpr.envGet k =>
    some (match dget env k with | some v => v | Option.none => Value.null)
  | PyExpr.unNot e => (evalPy env e).map (fun v => Value.bool (!truthy v))
  | PyExpr.unNeg e => (evalPy env e).bind (fun v => (toIntQ v).map (fun n => Value.int (-n)))
  | PyExpr.orE l r => (evalPy env l).bind (fun v => if truthy v then some v else evalPy env r)
  | PyExpr.andE l r => (evalPy env l).bind (fun v => if truthy v then evalPy env r else some v)
  | PyExpr.cmpE op l r =>
    (evalPy env l).bind (fun a => (evalPy env r).bind (fun b => evalCmp op a b))
  | PyExpr.addE l r =>
    (evalPy env l).bind (fun a => (evalPy env r).bind (fun b => pyAdd a b))
  | PyExpr.subE l r =>
    (evalPy env l).bind (fun a => (evalPy env r).bind (fun b => pyArith (· - ·) a b))
  | PyExpr.mulE l r =>
    (evalPy env l).bind (fun a => (evalPy env r).bind (fun b => pyArith (· * ·) a b))

/-- `_cond_eval(cond, env)`: normalise the condition text, lower-case the
environment keys, rewrite identifiers, and hand the produced Python text to
the host evaluator; any exception yields `false`. -/
def condEval (cond : String) (env : Env) : Bool :=
  let envCi := lowerKeys env
  let ptoks := replaceIdentifiers (normalizeCond cond)
  match pyLexF (ptoks.length + 1) ptoks with
  | Option.none => false
  | some toks =>
    match pyParse toks with
    | Option.none => false
    | some e =>
      match evalPy envCi e with
      | Option.none => false
      | some v => truthy v

/-! ### DataFrame primitives -/

/-- Read the cell of column `c` from a row of a frame with columns `cols`. -/
def getCell (cols : List String) (r : Row) (c : String) : Value :=
  match cols.findIdx? (fun x => x == c) with
  | some i => r.cells.getD i Value.null
  | Option.none => Value.null

/-- Project the cells of a row onto an attribute list (in that order). -/
def projCells (cols : List String) (r : Row) (attrs : List String) : List Value :=
  attrs.map (getCell cols r)

/-- `drop_duplicates(subset=key)`: keep the first element of each key. -/
def dedupAux {α : Type} (key : α → List Value) (seen : List (List Value)) : List α → List α
  | [] => []
  | r :: rs =>
    if key r ∈ seen then dedupAux key seen rs
    else r :: dedupAux key (key r :: seen) rs

/-- `drop_duplicates` keyed by `key`, keeping first occurrences. -/
def dropDupBy (key : Row → List Value) (rows : List Row) : List Row :=
  dedupAux key [] rows

/-- `drop_duplicates` on a frame of bare cell tuples (no `_prov` column). -/
def dropDupL (l : List (List Value)) : List (List Value) :=
  dedupAux id [] l

/-- The inner loop of `_combine_aliases._map_and_store`: map alias columns
into the output, falling back to the `_r`-suffixed name. -/
def mapAliasCols (outCols : List String) : List String → List String
  | [] => []
  | c :: cs =>
    if c ∈ outCols then c :: mapAliasCols outCols cs
    else if (c ++ "_r") ∈ outCols then (c ++ "_r") :: mapAliasCols outCols cs
    else mapAliasCols outCols cs

/-- `_combine_aliases(output_cols, left_aliases, right_aliases)`: store the
mapped columns of every alias, left side first, under the lowercased alias
name (later stores overwrite earlier ones). -/
def combineAliases (outCols : List String) (leftA rightA : List (String × List String)) :
    List (String × List String) :=
  let step := fun (acc : List (String × List String)) (p : String × List String) =>
    let mapped := mapAliasCols outCols p.2
    if mapped.isEmpty then acc else dinsert acc (strLower p.1) mapped
  rightA.foldl step (leftA.foldl step [])

/-- `_filter_aliases(aliases, columns)`: keep, per alias with a nonempty
source column list, those columns still present. -/
def filterAliases (aliases : List (String × List String)) (columns : List String) :
    List (String × List String) :=
  aliases.foldl
    (fun acc p =>
      if p.2.isEmpty then acc
      else dinsert acc (strLower p.1) (p.2.filter (fun c => c ∈ columns)))
    []

/-- `_row_env(row, aliases)`: lowercased column bindings followed by the
alias-qualified `alias.attr` bindings. -/
def rowEnv (cols : List String) (aliases : List (String × List String)) (r : Row) : Env :=
  let base := cols.foldl (fun env c => dinsert env (strLower c) (getCell cols r c)) []
  aliases.foldl
    (fun env p =>
      p.2.foldl
        (fun env c =>
          if c ∈ cols then dinsert env (strLower p.1 ++ "." ++ strLower c) (getCell cols r c)
          else env)
        env)
    base

/-- The row environment built inside `_theta_join`: the visible columns
bound under their frame names, with no alias-qualified entries. -/
def envOfVis (cols : List String) (r : Row) : Env :=
  cols.foldl (fun env c => dinsert env c (getCell cols r c)) []

/-! ### The relational operators of the evaluator -/

/-- `_product(L, R)`: cartesian product; overlapping right column names get
the `_r` suffix, provenance lists are concatenated, alias maps combined. -/
def productDF (L R : DF) : DF :=
  let rcols := R.cols.map (fun c => if c ∈ L.cols then c ++ "_r" else c)
  let cols := L.cols ++ rcols
  { cols := cols
    rows := L.rows.flatMap (fun lr =>
      R.rows.map (fun rr => { cells := lr.cells ++ rr.cells, prov := lr.prov ++ rr.prov }))
    aliases := combineAliases (cols ++ ["_prov"]) L.aliases R.aliases }

/-- `_theta_join(L, R, cond)`: filter the product by the condition evaluated
in the bare visible-column environment. -/
def thetaJoin (L R : DF) (cond : String) : DF :=
  let P := productDF L R
  { P with rows := P.rows.filter (fun r => condEval cond (envOfVis P.cols r)) }

/-- The Selection branch of `eval` applied to an already evaluated input:
keep the rows whose condition holds in `_row_env`, refilter the aliases. -/
def selectionDF (cond : String) (inp : DF) : DF :=
  { cols := inp.cols
    rows := inp.rows.filter (fun r => condEval cond (rowEnv inp.cols inp.aliases r))
    aliases := filterAliases inp.aliases (inp.cols ++ ["_prov"]) }

/-- `_natural_join(L, R)`: product when no common column, otherwise the
inner equi-join on the common columns. -/
def naturalJoinDF (L R : DF) : DF :=
  let common := L.cols.filter (fun c => c ∈ R.cols)
  if common.isEmpty then productDF L R
  else
    let rkeep := R.cols.filter (fun c => c ∉ common)
    let rcols := rkeep.map (fun c => if c ∈ L.cols then c ++ "_r" else c)
    let cols := L.cols ++ rcols
    { cols := cols
      rows := L.rows.flatMap (fun lr =>
        (R.rows.filter (fun rr =>
            common.all (fun c => getCell L.cols lr c == getCell R.cols rr c))).map
          (fun rr =>
            { cells := lr.cells ++ rkeep.map (getCell R.cols rr)
              prov := lr.prov ++ rr.prov }))
      aliases := combineAliases (cols ++ ["_prov"]) L.aliases R.aliases }

/-- `_intersection(L, R)`: deduplicate both sides on the (shared) schema,
inner-merge them, concatenate the matched provenances, deduplicate again. -/
def intersectionDF (L R : DF) : DF :=
  let left := dropDupBy Row.cells L.rows
  let right := dropDupBy Row.cells R.rows
  let merged := left.flatMap (fun lr =>
    (right.filter (fun rr => rr.cells == lr.cells)).map
      (fun rr => { cells := lr.cells, prov := lr.prov ++ rr.prov }))
  { cols := L.cols, rows := dropDupBy Row.cells merged, aliases := [] }

/-- The `groupby(quotient_attrs)["_prov"].agg(concat)` lookup of `_division`:
concatenated provenance of every dividend row projecting to `q`. -/
def provFor (A : DF) (qAttrs : List String) (q : List Value) : List (String × Nat) :=
  (A.rows.filter (fun a => projCells A.cols a qAttrs == q)).flatMap Row.prov

/-- `_division(dividend, divisor, quotient_attrs, divisor_attrs)`. -/
def divisionDF (dividend divisor : DF) (qAttrs dAttrs : List String) : Except String DF :=
  if qAttrs.isEmpty then
    Except.error "Division requires the divisor to exclude at least one dividend attribute"
  else
    let candidates := dropDupL (dividend.rows.map (fun a => projCells dividend.cols a qAttrs))
    if candidates.isEmpty then
      Except.ok { cols := qAttrs, rows := [], aliases := [] }
    else
      let required := dropDupL (divisor.rows.map (fun b => projCells divisor.cols b dAttrs))
      if required.isEmpty then
        Except.ok { cols := qAttrs
                    rows := candidates.map (fun q => { cells := q, prov := provFor dividend qAttrs q })
                    aliases := [] }
      else
        let actual :=
          dropDupL (dividend.rows.map (fun a => projCells dividend.cols a (qAttrs ++ dAttrs)))
        let valid := candidates.filter (fun q => required.all (fun r => (q ++ r) ∈ actual))
        Except.ok { cols := qAttrs
                    rows := valid.map (fun q => { cells := q, prov := provFor dividend qAttrs q })
                    aliases := [] }

/-- The Projection branch applied to an evaluated input: missing attributes
raise (pandas KeyError); otherwise restrict the cells and deduplicate,
keeping the first occurrence of each projected tuple. -/
def projectionE (attrs : List String) (inp : DF) : Except String DF :=
  if attrs.all (fun a => a ∈ inp.cols) then
    Except.ok
      { cols := attrs
        rows := dropDupBy Row.cells
          (inp.rows.map (fun r => { cells := projCells inp.cols r attrs, prov := r.prov }))
        aliases := filterAliases inp.aliases (attrs ++ ["_prov"]) }
  else Except.error "KeyError: projection attribute not in columns"

/-- The Union branch applied to evaluated inputs: schemas must agree as
ordered sequences; concatenate A-then-B and `drop_duplicates` (first
occurrence kept, with its provenance). -/
def unionE (L R : DF) : Except String DF :=
  if L.cols = R.cols then
    Except.ok
      { cols := L.cols
        rows := dropDupBy Row.cells (L.rows ++ R.rows)
        aliases := combineAliases (L.cols ++ ["_prov"]) L.aliases R.aliases }
  else Except.error "Union-compatibility failed"

/-- The Difference branch applied to evaluated inputs: keep the left rows
absent from the right, then overwrite `_prov` positionally with
`L.loc[out.index]`, i.e. the provenance of the first `k` rows of `L`. -/
def differenceE (L R : DF) : Except String DF :=
  if L.cols = R.cols then
    let surv := L.rows.filter (fun lr => !(R.rows.any (fun rr => rr.cells == lr.cells)))
    Except.ok
      { cols := L.cols
        rows := List.zipWith (fun (s a : Row) => { cells := s.cells, prov := a.prov }) surv L.rows
        aliases := combineAliases (L.cols ++ ["_prov"]) L.aliases R.aliases }
  else Except.error "Difference requires identical schemas"

/-- The Intersection branch applied to evaluated inputs. -/
def intersectionE (L R : DF) : Except String DF :=
  if L.cols = R.cols then
    let out := intersectionDF L R
    Except.ok { out with aliases := combineAliases (out.cols ++ ["_prov"]) L.aliases R.aliases }
  else Except.error "Intersection requires identical schemas"

/-- The Division branch applied to evaluated inputs: the divisor schema must
be a subset of the dividend schema; the quotient attributes keep dividend
order. -/
def divisionE (L R : DF) : Except String DF :=
  if R.cols.all (fun c => c ∈ L.cols) then
    match divisionDF L R (L.cols.filter (fun c => c ∉ R.cols)) R.cols with
    | Except.error e => Except.error e
    | Except.ok out =>
      Except.ok { out with aliases := filterAliases L.aliases (out.cols ++ ["_prov"]) }
  else Except.error "Division requires divisor attributes to be a subset of dividend attributes"

/-! ### The operator AST and the tracing evaluator -/

/-- The backend AST node kinds used by `eval` (the Rename variant is not
involved in any claim and is left out of scope of the embedding). -/
inductive RNode where
  | relation (name : String)
  | projection (attrs : List String) (sub : RNode)
  | selection (cond : String) (sub : RNode)
  | join (left right : RNode) (theta : Option String)
  | product (left right : RNode)
  | union (left right : RNode)
  | difference (left right : RNode)
  | intersection (left right : RNode)
  | division (left right : RNode)
deriving DecidableEq, Repr

/-- The trace fields of a step record that the embedding tracks: operator
tag, output schema, and resulting row count. -/
structure Step where
  op : String
  outputSchema : List String
  rowsAfter : Nat
deriving DecidableEq, Repr

/-- Is a brace condition active?  Python `node.theta and node.theta.strip()`
is truthy exactly when the text has a non-whitespace character. -/
def thetaActive : Option String → Bool
  | Option.none => false
  | some t => strTrim t != ""

/-- `eval(node, env, steps)`: recursively evaluate, appending one trace
record per node in post order; errors propagate as `Except.error`. -/
def evalNode : RNode → List (String × DF) → Except String (DF × List Step)
  | RNode.relation name, env =>
    match dget env (strLower name) with
    | Option.none => Except.error ("Relation not found: " ++ name)
    | some df =>
      let out : DF := { df with aliases := [(strLower name, df.cols)] }
      Except.ok (out, [{ op := "rel", outputSchema := out.cols, rowsAfter := out.rows.length }])
  | RNode.projection attrs sub, env => do
    let (inp, s) ← evalNode sub env
    let out ← projectionE attrs inp
    pure (out, s ++ [{ op := "π", outputSchema := out.cols, rowsAfter := out.rows.length }])
  | RNode.selection cond sub, env => do
    let (inp, s) ← evalNode sub env
    let out := selectionDF cond inp
    pure (out, s ++ [{ op := "σ", outputSchema := out.cols, rowsAfter := out.rows.length }])
  | RNode.join l r theta, env => do
    let (L, s1) ← evalNode l env
    let (R, s2) ← evalNode r env
    if thetaActive theta then
      let out := thetaJoin L R (theta.getD "")
      pure (out, s1 ++ s2 ++ [{ op := "⋈_θ", outputSchema := out.cols, rowsAfter := out.rows.length }])
    else
      let out := naturalJoinDF L R
      pure (out, s1 ++ s2 ++ [{ op := "⋈", outputSchema := out.cols, rowsAfter := out.rows.length }])
  | RNode.product l r, env => do
    let (L, s1) ← evalNode l env
    let (R, s2) ← evalNode r env
    let out := productDF L R
    pure (out, s1 ++ s2 ++ [{ op := "×", outputSchema := out.cols, rowsAfter := out.rows.length }])
  | RNode.union l r, env => do
    let (L, s1) ← evalNode l env
    let (R, s2) ← evalNode r env
    let out ← unionE L R
    pure (out, s1 ++ s2 ++ [{ op := "∪", outputSchema := out.cols, rowsAfter := out.rows.length }])
  | RNode.difference l r, env => do
    let (L, s1) ← evalNode l env
    let (R, s2) ← evalNode r env
    let out ← differenceE L R
    pure (out, s1 ++ s2 ++ [{ op := "−", outputSchema := out.cols, rowsAfter := out.rows.length }])
  | RNode.intersection l r, env => do
    let (L, s1) ← evalNode l env
    let (R, s2) ← evalNode r env
    let out ← intersectionE L R
    pure (out, s1 ++ s2 ++ [{ op := "∩", outputSchema := out.cols, rowsAfter := out.rows.length }])
  | RNode.division l r, env => do
    let (L, s1) ← evalNode l env
    let (R, s2) ← evalNode r env
    let out ← divisionE L R
    pure (out, s1 ++ s2 ++ [{ op := "÷", outputSchema := out.cols, rowsAfter := out.rows.length }])

end RAedu

namespace Raedu

/-- The node dataclasses that raedu/ra_ast.py defines: `Relation`,
`Projection`, `Selection`, `Rename`, `Join`, `Product`, `Union`,
`Difference` — and no Intersection or Division variant. -/
inductive RaeduNode where
  | relation (name : String)
  | projection (attrs : List String) (sub : RaeduNode)
  | selection (cond : String) (sub : RaeduNode)
  | rename (pairs : List (String × String)) (sub : RaeduNode)
  | join (left right : RaeduNode) (theta : Option String)
  | product (left right : RaeduNode)
  | union (left right : RaeduNode)
  | difference (left right : RaeduNode)
deriving DecidableEq, Repr

/-- An item of the child list handed to `_ToAST.expr`: an already
transformed AST node, an operator token (its lark type), or a condition
string. -/
inductive ExprItem where
  | node (n : RaeduNode)
  | tok (typ : String)
  | condStr (s : String)
deriving DecidableEq, Repr

/-- The scan after a JOIN token: skip items until the next node, remembering
the last condition string (stripped; empty becomes no condition). -/
def joinScan (theta : Option String) : List ExprItem → (Option String × List ExprItem)
  | [] => (theta, [])
  | ExprItem.node n :: rest => (theta, ExprItem.node n :: rest)
  | ExprItem.condStr s :: rest =>
    joinScan (if RAedu.strTrim s = "" then Option.none else some (RAedu.strTrim s)) rest
  | ExprItem.tok _ :: rest => joinScan theta rest

theorem joinScan_length (theta : Option String) (l : List ExprItem) :
    (joinScan theta l).2.length ≤ l.length := by
  induction l generalizing theta with
  | nil => simp [joinScan]
  | cons x rest ih =>
    cases x with
    | node n => simp [joinScan]
    | tok t => exact le_trans (ih theta) (Nat.le_succ _)
    | condStr s => exact le_trans (ih _) (Nat.le_succ _)

/-- The reduction loop of `_ToAST.expr` from ra_parser.py.  Non-token items
at operator position are skipped; a JOIN consumes an optional condition and
the next node; other operators require the next item to be a node.  The
INTERSECT and DIV branches evaluate `AST.Intersection` and `AST.Division`,
attributes the raedu ra_ast module does not define, so they raise
AttributeError — modelled as an error result. -/
def exprGo (node : RaeduNode) : List ExprItem → Except String RaeduNode
  | [] => Except.ok node
  | ExprItem.node _ :: rest => exprGo node rest
  | ExprItem.condStr _ :: rest => exprGo node rest
  | ExprItem.tok typ :: rest =>
    if typ = "JOIN" then
      match hscan : joinScan Option.none rest with
      | (theta, ExprItem.node r :: rest') => exprGo (RaeduNode.join node r theta) rest'
      | _ => Except.error "JOIN requires a right-hand expression"
    else
      match rest with
      | ExprItem.node r :: rest' =>
        if typ = "PRODUCT" then exprGo (RaeduNode.product node r) rest'
        else if typ = "UNION" then exprGo (RaeduNode.union node r) rest'
        else if typ = "DIFF" then exprGo (RaeduNode.difference node r) rest'
        else if typ = "INTERSECT" then
          Except.error "AttributeError: module raedu.ra_ast has no attribute Intersection"
        else if typ = "DIV" then
          Except.error "AttributeError: module raedu.ra_ast has no attribute Division"
        else Except.error ("Unsupported operator token: " ++ typ)
      | _ => Except.error ("Operator " ++ typ ++ " missing right-hand expression")
termination_by items => items.length
decreasing_by
  · simp only [List.length_cons]; omega
  · simp only [List.length_cons]; omega
  · have h1 : (joinScan Option.none rest).2.length ≤ rest.length := joinScan_length _ _
    rw [hscan] at h1
    simp only [List.length_cons] at h1 ⊢
    omega
  all_goals simp only [List.length_cons]; omega

/-- `_ToAST.expr(items)`: empty child lists raise; the reduction starts from
the first item, which the grammar guarantees to be a node. -/
def exprReduce : List ExprItem → Except String RaeduNode
  | [] => Except.error "Expression produced no terms"
  | ExprItem.node n :: rest => exprGo n rest
  | _ => Except.error "Expression does not start with a node"

/-- Modelled from the spec: the grammar file raedu/grammar/ra_grammar.lark is
not in the sources; per the surface grammar (spec 4.3,
`binary := unary ( BINOP [braceCond] unary )*`) the child list of an `expr`
tree is a first operand followed by operator blocks, each an operator token,
an optional brace-condition string, and the right operand. -/
def blockOf (b : String × Option String × RaeduNode) : List ExprItem :=
  ExprItem.tok b.1 ::
    ((match b.2.1 with | some s => [ExprItem.condStr s] | Option.none => []) ++
      [ExprItem.node b.2.2])

def buildItems (head : RaeduNode) (ops : List (String × Option String × RaeduNode)) :
    List ExprItem :=
  ExprItem.node head :: ops.flatMap blockOf

end Raedu

namespace RAedu

/-! ### Identifier keys looked up by an evaluated condition

Used to state when a condition contains no qualified (dotted) identifier
reference: every environment lookup the emitted Python text performs is an
`env.get(key)` with a key collected below. -/

/-- The `env.get` keys of the emitted Python fragments. -/
def pytokKeys (ps : List PyTok) : List String :=
  ps.filterMap (fun t => match t with | PyTok.envGet k => some k | _ => Option.none)

/-- The `env.get` keys of a lexed token list. -/
def tokKeys (ts : List Tok) : List String :=
  ts.filterMap (fun t => match t with | Tok.envGet k => some k | _ => Option.none)

/-- The `env.get` keys of a parsed expression. -/
def exprKeys : PyExpr → List String
  | PyExpr.lit _ => []
  | PyExpr.envGet k => [k]
  | PyExpr.unNot e => exprKeys e
  | PyExpr.unNeg e => exprKeys e
  | PyExpr.orE l r => exprKeys l ++ exprKeys r
  | PyExpr.andE l r => exprKeys l ++ exprKeys r
  | PyExpr.cmpE _ l r => exprKeys l ++ exprKeys r
  | PyExpr.addE l r => exprKeys l ++ exprKeys r
  | PyExpr.subE l r => exprKeys l ++ exprKeys r
  | PyExpr.mulE l r => exprKeys l ++ exprKeys r

/-- The keys of the parser accumulator. -/
def accKeys : Option PyExpr → List String
  | Option.none => []
  | some e => exprKeys e

/-- The environment keys a condition string can look up: the keys of the
`env.get` calls that `_replace_identifiers` emits for the normalised text. -/
def condKeys (cond : String) : List String :=
  pytokKeys (replaceIdentifiers (normalizeCond cond))

/-! ### Concrete fixtures used by the counterexamples and witnesses -/

/-- A one-row relation r with column x = 1. -/
def fixR : DF :=
  { cols := ["x"], rows := [{ cells := [Value.int 1], prov := [("r", 0)] }], aliases := [] }

/-- One-row relation s with column a = 1 (for the θ-join counterexample). -/
def fixS : DF :=
  { cols := ["a"], rows := [{ cells := [Value.int 1], prov := [("s", 0)] }], aliases := [] }

/-- One-row relation t with column b = 2 (for the θ-join counterexample). -/
def fixT : DF :=
  { cols := ["b"], rows := [{ cells := [Value.int 2], prov := [("t", 0)] }], aliases := [] }

/-- Relation a with the single row x = 1, provenance tag (a, 0). -/
def fixA4 : DF :=
  { cols := ["x"], rows := [{ cells := [Value.int 1], prov := [("a", 0)] }], aliases := [] }

/-- Relation b with the same single row x = 1, provenance tag (b, 0). -/
def fixB4 : DF :=
  { cols := ["x"], rows := [{ cells := [Value.int 1], prov := [("b", 0)] }], aliases := [] }

/-- Relation a with two identical rows x = 1. -/
def fixA5 : DF :=
  { cols := ["x"]
    rows := [{ cells := [Value.int 1], prov := [("a", 0)] },
             { cells := [Value.int 1], prov := [("a", 1)] }]
    aliases := [] }

/-- An empty relation over the schema [x]. -/
def fixB5 : DF := { cols := ["x"], rows := [], aliases := [] }

/-- Relation a with rows x = 1 and x = 2. -/
def fixA7 : DF :=
  { cols := ["x"]
    rows := [{ cells := [Value.int 1], prov := [("a", 0)] },
             { cells := [Value.int 2], prov := [("a", 1)] }]
    aliases := [] }

/-- Relation b with the single row x = 1. -/
def fixB7 : DF :=
  { cols := ["x"], rows := [{ cells := [Value.int 1], prov := [("b", 0)] }], aliases := [] }

/-- A fixture with a different schema, for union and difference errors. -/
def fixY : DF := { cols := ["y"], rows := [], aliases := [] }

/-- A dividend fixture: enrolment pairs (s, c). -/
def fixDiv : DF :=
  { cols := ["s", "c"]
    rows := [{ cells := [Value.int 1, Value.str "c1"], prov := [("e", 0)] },
             { cells := [Value.int 1, Value.str "c2"], prov := [("e", 1)] },
             { cells := [Value.int 2, Value.str "c1"], prov := [("e", 2)] }]
    aliases := [] }

/-- A divisor fixture: required courses. -/
def fixReq : DF :=
  { cols := ["c"]
    rows := [{ cells := [Value.str "c1"], prov := [("q", 0)] },
             { cells := [Value.str "c2"], prov := [("q", 1)] }]
    aliases := [] }

end RAedu

namespace RAedu

/-! ### General facts about `drop_duplicates` (first occurrence kept) -/

theorem dedupAux_key_not_seen {α : Type} (key : α → List Value)
    (seen : List (List Value)) (l : List α) :
    ∀ r ∈ dedupAux key seen l, key r ∉ seen := by
  induction l generalizing seen with
  | nil => intro r hr; simp [dedupAux] at hr
  | cons x xs ih =>
    intro r hr
    by_cases hx : key x ∈ seen
    · rw [dedupAux, if_pos hx] at hr
      exact ih seen r hr
    · rw [dedupAux, if_neg hx] at hr
      rcases List.mem_cons.mp hr with hr | hr
      · subst hr; exact hx
      · intro hmem
        exact ih (key x :: seen) r hr (List.mem_cons_of_mem _ hmem)

theorem dedupAux_subset {α : Type} (key : α → List Value)
    (seen : List (List Value)) (l : List α) :
    ∀ r ∈ dedupAux key seen l, r ∈ l := by
  induction l generalizing seen with
  | nil => intro r hr; simp [dedupAux] at hr
  | cons x xs ih =>
    intro r hr
    by_cases hx : key x ∈ seen
    · rw [dedupAux, if_pos hx] at hr
      exact List.mem_cons_of_mem _ (ih seen r hr)
    · rw [dedupAux, if_neg hx] at hr
      rcases List.mem_cons.mp hr with hr | hr
      · subst hr; exact List.mem_cons_self _ _
      · exact List.mem_cons_of_mem _ (ih _ r hr)

theorem dedupAux_keys_covered {α : Type} (key : α → List Value)
    (seen : List (List Value)) (l : List α) :
    ∀ r ∈ l, key r ∉ seen → ∃ q ∈ dedupAux key seen l, key q = key r := by
  induction l generalizing seen with
  | nil => intro r hr; simp at hr
  | cons x xs ih =>
    intro r hr hns
    by_cases hx : key x ∈ seen
    · rw [dedupAux, if_pos hx]
      rcases List.mem_cons.mp hr with hr | hr
      · subst hr; exact absurd hx hns
      · exact ih seen r hr hns
    · rw [dedupAux, if_neg hx]
      by_cases hkey : key r = key x
      · exact ⟨x, List.mem_cons_self _ _, hkey.symm⟩
      · rcases List.mem_cons.mp hr with hr | hr
        · subst hr; exact absurd rfl hkey
        · obtain ⟨q, hq, he⟩ := ih (key x :: seen) r hr (by
            intro hmem
            rcases List.mem_cons.mp hmem with h | h
            · exact hkey h
            · exact hns h)
          exact ⟨q, List.mem_cons_of_mem _ hq, he⟩

theorem dedupAux_nodup {α : Type} (key : α → List Value)
    (seen : List (List Value)) (l : List α) :
    ((dedupAux key seen l).map key).Nodup := by
  induction l generalizing seen with
  | nil => simp [dedupAux]
  | cons x xs ih =>
    by_cases hx : key x ∈ seen
    · rw [dedupAux, if_pos hx]; exact ih seen
    · rw [dedupAux, if_neg hx]
      refine List.nodup_cons.mpr ⟨?_, ih (key x :: seen)⟩
      intro hmem
      obtain ⟨q, hq, he⟩ := List.mem_map.mp hmem
      have := dedupAux_key_not_seen key (key x :: seen) xs q hq
      exact this (by rw [he]; exact List.mem_cons_self _ _)

theorem dedupAux_find_first {α : Type} [DecidableEq α] (key : α → List Value)
    (seen : List (List Value)) (l : List α) :
    ∀ r ∈ dedupAux key seen l, l.find? (fun q => key q == key r) = some r := by
  induction l generalizing seen with
  | nil => intro r hr; simp [dedupAux] at hr
  | cons x xs ih =>
    intro r hr
    by_cases hx : key x ∈ seen
    · rw [dedupAux, if_pos hx] at hr
      have hne : key x ≠ key r := by
        intro he
        exact dedupAux_key_not_seen key seen xs r hr (he ▸ hx)
      rw [List.find?_cons_of_neg _ (by simpa using hne)]
      exact ih seen r hr
    · rw [dedupAux, if_neg hx] at hr
      rcases List.mem_cons.mp hr with hr | hr
      · subst hr
        exact List.find?_cons_of_pos _ (by simp)
      · have hne : key x ≠ key r := by
          intro he
          exact dedupAux_key_not_seen key (key x :: seen) xs r hr
            (he ▸ List.mem_cons_self _ _)
        rw [List.find?_cons_of_neg _ (by simpa using hne)]
        exact ih (key x :: seen) r hr

/-! ### C1: the predicate evaluator delegates to the host eval -/

/-- C1: the predicate evaluator is not a closed-universe interpreter over
the listed operators: the condition text `2 * 3 > 5`, which uses the
multiplication operator and no recognised comparison of attribute terms,
is evaluated (to true) by the host-eval delegation of `_cond_eval`, and a
selection with that condition keeps every row rather than rejecting the
condition. -/
theorem c1_host_eval_evaluates_foreign_operator :
    condEval "2 * 3 > 5" [] = true ∧
    evalNode (RNode.selection "2 * 3 > 5" (RNode.relation "r")) [("r", fixR)] =
      Except.ok
        ({ cols := ["x"], rows := [{ cells := [Value.int 1], prov := [("r", 0)] }],
           aliases := [("r", ["x"])] },
         [{ op := "rel", outputSchema := ["x"], rowsAfter := 1 },
          { op := "σ", outputSchema := ["x"], rowsAfter := 1 }]) := by
  constructor
  · decide
  · rfl

/-! ### C2: predicate failures do not propagate -/

/-- C2: a selection whose condition references an identifier not bound by
the row environment does not fail: `_cond_eval` rewrites the identifier to
an `env.get` call that yields Python None, the comparison is false, and the
selection returns an empty relation with a normal trace — no error reaches
the caller. -/
theorem c2_undefined_identifier_is_silent_false :
    condEval "missing = 1" [("x", Value.int 1)] = false ∧
    evalNode (RNode.selection "missing = 1" (RNode.relation "r")) [("r", fixR)] =
      Except.ok
        ({ cols := ["x"], rows := [], aliases := [("r", ["x"])] },
         [{ op := "rel", outputSchema := ["x"], rowsAfter := 1 },
          { op := "σ", outputSchema := ["x"], rowsAfter := 0 }]) := by
  constructor
  · decide
  · rfl

/-! ### C8: normalisation rewrites inside string literals -/

/-- C8: the keyword folding and the `=` doubling of `_cond_eval` run over
the whole condition text before `_replace_identifiers` protects string
literals, so they also rewrite quoted literals: comparing column x against
the literal AND fails on a row whose cell is exactly AND (the literal was
folded to lowercase), while the unfolded lowercase literal matches; and a
literal containing a single `=` only matches a cell in which that `=` has
been doubled. -/
theorem c8_normalisation_rewrites_string_literals :
    condEval "x = \"AND\"" [("x", Value.str "AND")] = false ∧
    condEval "x = \"and\"" [("x", Value.str "and")] = true ∧
    condEval "x = \"a=b\"" [("x", Value.str "a=b")] = false ∧
    condEval "x = \"a=b\"" [("x", Value.str "a==b")] = true := by
  refine ⟨by decide, by decide, by decide, by decide⟩

/-! ### C3 counterexample: θ-join is not σ over the product -/

/-- C3 is false as stated: with alias maps merged, the qualified name s.a
resolves inside `σ{s.a = 1}(s × t)` (the row is kept) but not inside the
θ-join `s ⋈{s.a = 1} t`, whose row environment contains only the bare
column bindings, so `env.get` yields None and the product row is dropped. -/
theorem c3_qualified_name_counterexample :
    (∃ out steps,
      evalNode (RNode.join (RNode.relation "s") (RNode.relation "t") (some "s.a = 1"))
          [("s", fixS), ("t", fixT)] = Except.ok (out, steps) ∧ out.rows = []) ∧
    (∃ out steps,
      evalNode (RNode.selection "s.a = 1"
            (RNode.product (RNode.relation "s") (RNode.relation "t")))
          [("s", fixS), ("t", fixT)] = Except.ok (out, steps) ∧
        out.rows = [{ cells := [Value.int 1, Value.int 2], prov := [("s", 0), ("t", 0)] }]) := by
  exact ⟨⟨_, _, rfl, rfl⟩, ⟨_, _, rfl, rfl⟩⟩

/-! ### C4 counterexample: union keeps only the first provenance -/

/-- C4 is false as stated: uniting two one-row relations that contain the
same row, `drop_duplicates` keeps the first occurrence together with its
provenance alone; the surviving row carries the tag list of the a-side row
only, not the concatenation with the b-side tag list. -/
theorem c4_union_first_provenance_counterexample :
    (∃ out steps,
      evalNode (RNode.union (RNode.relation "a") (RNode.relation "b"))
          [("a", fixA4), ("b", fixB4)] = Except.ok (out, steps) ∧
        out.rows.map Row.prov = [[("a", 0)]]) ∧
    [[(("a" : String), (0 : Nat))]] ≠ [[("a", 0), ("b", 0)]] := by
  exact ⟨⟨_, _, rfl, rfl⟩, by decide⟩

/-! ### C5 counterexample: difference output can contain duplicates -/

/-- C5 is false as stated for difference: subtracting an empty relation
from a relation holding two identical rows keeps both copies, so the
resulting relation has duplicate rows under schema-tuple equality. -/
theorem c5_difference_duplicates_counterexample :
    ∃ out steps,
      evalNode (RNode.difference (RNode.relation "a") (RNode.relation "b"))
          [("a", fixA5), ("b", fixB5)] = Except.ok (out, steps) ∧
        out.rows.map Row.cells = [[Value.int 1], [Value.int 1]] ∧
        ¬ (out.rows.map Row.cells).Nodup := by
  refine ⟨_, _, rfl, rfl, by decide⟩

/-! ### C7 counterexample: difference reassigns provenance positionally -/

/-- C7 is false as stated: subtracting b = [x = 1] from a = [x = 1 tagged
(a,0); x = 2 tagged (a,1)] keeps the row x = 2, but the Difference branch
overwrites `_prov` with `L.loc[out.index]` after the index reset, so the
surviving row carries the tag (a,0) of the removed first row instead of its
own tag (a,1). -/
theorem c7_difference_provenance_counterexample :
    (∃ out steps,
      evalNode (RNode.difference (RNode.relation "a") (RNode.relation "b"))
          [("a", fixA7), ("b", fixB7)] = Except.ok (out, steps) ∧
        out.rows = [{ cells := [Value.int 2], prov := [("a", 0)] }]) ∧
    [(("a" : String), (0 : Nat))] ≠ [("a", 1)] := by
  exact ⟨⟨_, _, rfl, rfl⟩, by decide⟩

end RAedu
namespace Raedu

theorem exprGo_blocks_error (ops : List (String × Option String × RaeduNode))
    (node : RaeduNode)
    (h : ∃ b ∈ ops, b.1 = "INTERSECT" ∨ b.1 = "DIV") :
    ∃ msg, exprGo node (ops.flatMap blockOf) = Except.error msg := by
  induction ops generalizing node with
  | nil => simp at h
  | cons b rest ih =>
    obtain ⟨t, c, n⟩ := b
    by_cases hJ : t = "JOIN"
    · subst hJ
      have h' : ∃ b ∈ rest, b.1 = "INTERSECT" ∨ b.1 = "DIV" := by
        rcases h with ⟨b', hb', hbad⟩
        rcases List.mem_cons.mp hb' with he | hm
        · subst he; simp at hbad
        · exact ⟨b', hm, hbad⟩
      cases c with
      | none =>
        have := ih (RaeduNode.join node n Option.none) h'
        simpa [blockOf, exprGo, joinScan] using this
      | some s =>
        have := ih (RaeduNode.join node n
          (if RAedu.strTrim s = "" then Option.none else some (RAedu.strTrim s))) h'
        simpa [blockOf, exprGo, joinScan] using this
    · by_cases hc : ∃ s, c = some s
      · obtain ⟨s, rfl⟩ := hc
        refine ⟨"Operator " ++ t ++ " missing right-hand expression", ?_⟩
        simp [blockOf, exprGo, hJ]
      · have hcn : c = Option.none := by
          cases c with
          | none => rfl
          | some s => exact absurd ⟨s, rfl⟩ hc
        subst hcn
        by_cases hP : t = "PRODUCT"
        · subst hP
          have h' : ∃ b ∈ rest, b.1 = "INTERSECT" ∨ b.1 = "DIV" := by
            rcases h with ⟨b', hb', hbad⟩
            rcases List.mem_cons.mp hb' with he | hm
            · subst he; simp at hbad
            · exact ⟨b', hm, hbad⟩
          have := ih (RaeduNode.product node n) h'
          simpa [blockOf, exprGo] using this
        · by_cases hU : t = "UNION"
          · subst hU
            have h' : ∃ b ∈ rest, b.1 = "INTERSECT" ∨ b.1 = "DIV" := by
              rcases h with ⟨b', hb', hbad⟩
              rcases List.mem_cons.mp hb' with he | hm
              · subst he; simp at hbad
              · exact ⟨b', hm, hbad⟩
            have := ih (RaeduNode.union node n) h'
            simpa [blockOf, exprGo] using this
          · by_cases hD : t = "DIFF"
            · subst hD
              have h' : ∃ b ∈ rest, b.1 = "INTERSECT" ∨ b.1 = "DIV" := by
                rcases h with ⟨b', hb', hbad⟩
                rcases List.mem_cons.mp hb' with he | hm
                · subst he; simp at hbad
                · exact ⟨b', hm, hbad⟩
              have := ih (RaeduNode.difference node n) h'
              simpa [blockOf, exprGo] using this
            · by_cases hI : t = "INTERSECT"
              · subst hI
                exact ⟨"AttributeError: module raedu.ra_ast has no attribute Intersection",
                  by simp [blockOf, exprGo]⟩
              · by_cases hV : t = "DIV"
                · subst hV
                  exact ⟨"AttributeError: module raedu.ra_ast has no attribute Division",
                    by simp [blockOf, exprGo]⟩
                · exact ⟨"Unsupported operator token: " ++ t,
                    by simp [blockOf, exprGo, hJ, hP, hU, hD, hI, hV]⟩

end Raedu
namespace Raedu

/-- C10: any expression child list with an INTERSECT or DIV operator makes
the raedu transformer raise instead of producing an AST. -/
theorem c10_raedu_intersection_division_raises (head : RaeduNode)
    (ops : List (String × Option String × RaeduNode))
    (h : ∃ b ∈ ops, b.1 = "INTERSECT" ∨ b.1 = "DIV") :
    ∃ msg, exprReduce (buildItems head ops) = Except.error msg := by
  have := exprGo_blocks_error ops head h
  simpa [buildItems, exprReduce] using this

theorem c10_raedu_witness :
    ∃ msg,
      exprReduce (buildItems (RaeduNode.relation "a")
        [("INTERSECT", Option.none, RaeduNode.relation "b")]) = Except.error msg :=
  c10_raedu_intersection_division_raises _ _
    ⟨("INTERSECT", Option.none, RaeduNode.relation "b"), by simp, Or.inl rfl⟩

end Raedu

namespace RAedu

/-- C9: a Join node whose brace condition is whitespace only evaluates
exactly like a Join with no condition (same relation, same trace, op ⋈),
and the θ-path runs exactly when the condition has a non-blank character. -/
theorem c9_blank_theta_is_natural_join (l r : RNode) (env : List (String × DF)) (t : String)
    (h : strTrim t = "") :
    evalNode (RNode.join l r (some t)) env = evalNode (RNode.join l r Option.none) env ∧
    (∀ L s1 R s2, evalNode l env = Except.ok (L, s1) → evalNode r env = Except.ok (R, s2) →
      evalNode (RNode.join l r (some t)) env =
        Except.ok (naturalJoinDF L R,
          s1 ++ s2 ++ [{ op := "⋈", outputSchema := (naturalJoinDF L R).cols,
                         rowsAfter := (naturalJoinDF L R).rows.length }])) ∧
    (∀ t' L s1 R s2, strTrim t' ≠ "" → evalNode l env = Except.ok (L, s1) →
      evalNode r env = Except.ok (R, s2) →
      evalNode (RNode.join l r (some t')) env =
        Except.ok (thetaJoin L R t',
          s1 ++ s2 ++ [{ op := "⋈_θ", outputSchema := (thetaJoin L R t').cols,
                         rowsAfter := (thetaJoin L R t').rows.length }])) := by
  have hact : thetaActive (some t) = false := by simp [thetaActive, h]
  refine ⟨?_, ?_, ?_⟩
  · cases hL : evalNode l env with
    | error e => simp [evalNode, hL, bind, Except.bind]
    | ok p =>
      obtain ⟨L, s1⟩ := p
      cases hR : evalNode r env with
      | error e => simp [evalNode, hL, hR, bind, Except.bind]
      | ok q =>
        obtain ⟨R, s2⟩ := q
        simp [evalNode, hL, hR, thetaActive, bind, Except.bind, pure, Except.pure, h]
  · intro L s1 R s2 hL hR
    simp [evalNode, hL, hR, thetaActive, bind, Except.bind, pure, Except.pure, h]
  · intro t' L s1 R s2 ht hL hR
    have hact' : thetaActive (some t') = true := by simpa [thetaActive] using ht
    simp [evalNode, hL, hR, thetaActive, bind, Except.bind, pure, Except.pure, ht]

theorem c9_blank_theta_witness :
    evalNode (RNode.join (RNode.relation "a") (RNode.relation "b") (some " "))
        [("a", fixA4), ("b", fixB4)] =
      evalNode (RNode.join (RNode.relation "a") (RNode.relation "b") Option.none)
        [("a", fixA4), ("b", fixB4)] :=
  (c9_blank_theta_is_natural_join _ _ _ _ (by decide)).1

end RAedu
namespace RAedu

theorem divisionDF_rows (A B : DF) (qAttrs dAttrs : List String)
    (hq : qAttrs.isEmpty = false) :
    ∃ out, divisionDF A B qAttrs dAttrs = Except.ok out ∧ out.cols = qAttrs ∧
      out.aliases = [] ∧
      out.rows =
        ((if (dropDupL (B.rows.map (fun b => projCells B.cols b dAttrs))).isEmpty then
            dropDupL (A.rows.map (fun a => projCells A.cols a qAttrs))
          else
            (dropDupL (A.rows.map (fun a => projCells A.cols a qAttrs))).filter
              (fun q =>
                (dropDupL (B.rows.map (fun b => projCells B.cols b dAttrs))).all
                  (fun r =>
                    (q ++ r) ∈
                      dropDupL (A.rows.map (fun a => projCells A.cols a (qAttrs ++ dAttrs)))))).map
          (fun q => Row.mk q (provFor A qAttrs q))) := by
  by_cases hc : (dropDupL (A.rows.map (fun a => projCells A.cols a qAttrs))).isEmpty
  · have hcnil : dropDupL (A.rows.map (fun a => projCells A.cols a qAttrs)) = [] := by
      simpa using hc
    refine ⟨{ cols := qAttrs, rows := [], aliases := [] }, ?_, rfl, rfl, ?_⟩
    · rw [divisionDF]
      simp [hq, hc]
    · rw [hcnil]
      simp only [List.filter_nil]
      split <;> simp
  · by_cases hr : (dropDupL (B.rows.map (fun b => projCells B.cols b dAttrs))).isEmpty
    · refine ⟨{ cols := qAttrs,
                rows := (dropDupL (A.rows.map (fun a => projCells A.cols a qAttrs))).map
                  (fun q => Row.mk q (provFor A qAttrs q)),
                aliases := [] }, ?_, rfl, rfl, ?_⟩
      · rw [divisionDF]
        simp [hq, hc, hr]
      · simp [hr]
    · refine ⟨{ cols := qAttrs,
                rows := ((dropDupL (A.rows.map (fun a => projCells A.cols a qAttrs))).filter
                  (fun q =>
                    (dropDupL (B.rows.map (fun b => projCells B.cols b dAttrs))).all
                      (fun r =>
                        (q ++ r) ∈
                          dropDupL (A.rows.map
                            (fun a => projCells A.cols a (qAttrs ++ dAttrs)))))).map
                  (fun q => Row.mk q (provFor A qAttrs q)),
                aliases := [] }, ?_, rfl, rfl, ?_⟩
      · rw [divisionDF]
        simp [hq, hc, hr]
      · simp [hr]

end RAedu
namespace RAedu

/-- C4 amended: union requires equal ordered schemas (else an error); the
result is the duplicate-free set union of the rows; each surviving row is
the first contributing row, in A-then-B order, and carries the provenance of
that first contributing row alone. -/
theorem c4_union_set_semantics_first_prov (L R : DF) :
    (L.cols ≠ R.cols → ∃ msg, unionE L R = Except.error msg) ∧
    (L.cols = R.cols →
      ∃ out, unionE L R = Except.ok out ∧
        out.cols = L.cols ∧
        (∀ c, (∃ row ∈ out.rows, row.cells = c) ↔ (∃ row ∈ L.rows ++ R.rows, row.cells = c)) ∧
        (out.rows.map Row.cells).Nodup ∧
        (∀ row ∈ out.rows,
          (L.rows ++ R.rows).find? (fun q => q.cells == row.cells) = some row)) := by
  constructor
  · intro hne
    exact ⟨"Union-compatibility failed", by simp [unionE, hne]⟩
  · intro he
    refine ⟨{ cols := L.cols, rows := dropDupBy Row.cells (L.rows ++ R.rows),
              aliases := combineAliases (L.cols ++ ["_prov"]) L.aliases R.aliases },
            by rw [unionE, if_pos he], rfl, ?_, ?_, ?_⟩
    · intro c
      constructor
      · rintro ⟨row, hrow, rfl⟩
        exact ⟨row, dedupAux_subset _ _ _ row hrow, rfl⟩
      · rintro ⟨row, hrow, rfl⟩
        obtain ⟨q, hq, he'⟩ :=
          dedupAux_keys_covered Row.cells [] (L.rows ++ R.rows) row hrow (by simp)
        exact ⟨q, hq, he'⟩
    · exact dedupAux_nodup _ _ _
    · intro row hrow
      exact dedupAux_find_first Row.cells [] (L.rows ++ R.rows) row hrow

theorem c4_union_witness :
    (∃ msg, unionE fixA4 fixY = Except.error msg) ∧
    (∃ out, unionE fixA4 fixB4 = Except.ok out ∧
      out.cols = fixA4.cols ∧
      (∀ c, (∃ row ∈ out.rows, row.cells = c) ↔
        (∃ row ∈ fixA4.rows ++ fixB4.rows, row.cells = c)) ∧
      (out.rows.map Row.cells).Nodup ∧
      (∀ row ∈ out.rows,
        (fixA4.rows ++ fixB4.rows).find? (fun q => q.cells == row.cells) = some row)) :=
  ⟨(c4_union_set_semantics_first_prov fixA4 fixY).1 (by decide),
   (c4_union_set_semantics_first_prov fixA4 fixB4).2 rfl⟩

end RAedu
namespace RAedu

theorem zipWith_cells_of_le (l1 l2 : List Row) (h : l1.length ≤ l2.length) :
    (List.zipWith (fun (s a : Row) => Row.mk s.cells a.prov) l1 l2).map Row.cells =
      l1.map Row.cells := by
  induction l1 generalizing l2 with
  | nil => simp
  | cons x xs ih =>
    cases l2 with
    | nil => simp at h
    | cons y ys =>
      simp only [List.zipWith, List.map]
      rw [ih ys (by simpa using h)]

theorem zipWith_get_mk (l1 l2 : List Row) (i : Nat) (row : Row) :
    (List.zipWith (fun (s a : Row) => Row.mk s.cells a.prov) l1 l2).get? i = some row →
      ∃ s a, l1.get? i = some s ∧ l2.get? i = some a ∧ row = Row.mk s.cells a.prov := by
  induction l1 generalizing l2 i with
  | nil => intro hx; simp at hx
  | cons x xs ih =>
    cases l2 with
    | nil => intro hx; simp at hx
    | cons y ys =>
      cases i with
      | zero =>
        intro hx
        simp only [List.zipWith, List.get?] at hx
        exact ⟨x, y, rfl, rfl, (Option.some.inj hx).symm⟩
      | succ j =>
        intro hx
        simp only [List.zipWith, List.get?] at hx
        obtain ⟨s, a, h1, h2, h3⟩ := ih ys j hx
        exact ⟨s, a, h1, h2, h3⟩

/-- C7 amended: difference requires identical schemas; the output lists
exactly the rows of A absent from B (under schema-tuple equality, in A
order), but the provenance attached to the i-th surviving row is the
provenance of the i-th row of A, which need not be a contributing row. -/
theorem c7_difference_rows_and_positional_prov (L R : DF) :
    (L.cols ≠ R.cols → ∃ msg, differenceE L R = Except.error msg) ∧
    (L.cols = R.cols →
      ∃ out, differenceE L R = Except.ok out ∧
        out.cols = L.cols ∧
        out.rows.map Row.cells =
          (L.rows.filter (fun lr => decide (¬ ∃ rr ∈ R.rows, rr.cells = lr.cells))).map Row.cells ∧
        (∀ i row, out.rows.get? i = some row →
          ∃ a, L.rows.get? i = some a ∧ row.prov = a.prov)) := by
  constructor
  · intro hne
    exact ⟨"Difference requires identical schemas", by simp [differenceE, hne]⟩
  · intro he
    have hpred : ∀ lr : Row,
        (!(R.rows.any (fun rr => rr.cells == lr.cells))) =
          decide (¬ ∃ rr ∈ R.rows, rr.cells = lr.cells) := by
      intro lr
      by_cases hex : ∃ rr ∈ R.rows, rr.cells = lr.cells
      · obtain ⟨rr, hm, hc⟩ := hex
        have : R.rows.any (fun rr => rr.cells == lr.cells) = true :=
          List.any_eq_true.mpr ⟨rr, hm, by simpa using hc⟩
        simp [this]
        exact ⟨rr, hm, hc⟩
      · have : R.rows.any (fun rr => rr.cells == lr.cells) = false := by
          rw [List.any_eq_false]
          intro rr hm
          simp only [beq_iff_eq]
          intro hc
          exact hex ⟨rr, hm, hc⟩
        simp [this, hex]
    refine ⟨{ cols := L.cols,
              rows := List.zipWith (fun (s a : Row) => Row.mk s.cells a.prov)
                (L.rows.filter (fun lr => !(R.rows.any (fun rr => rr.cells == lr.cells)))) L.rows,
              aliases := combineAliases (L.cols ++ ["_prov"]) L.aliases R.aliases },
            by rw [differenceE, if_pos he], rfl, ?_, ?_⟩
    · rw [zipWith_cells_of_le _ _ (List.length_filter_le _ _)]
      congr 1
      exact List.filter_congr (fun x _ => hpred x)
    · intro i row hx
      obtain ⟨s, a, _, h2, h3⟩ := zipWith_get_mk _ _ i row hx
      exact ⟨a, h2, by rw [h3]⟩

theorem c7_difference_witness :
    (∃ msg, differenceE fixA7 fixY = Except.error msg) ∧
    (∃ out, differenceE fixA7 fixB7 = Except.ok out ∧
      out.cols = fixA7.cols ∧
      out.rows.map Row.cells =
        (fixA7.rows.filter
          (fun lr => decide (¬ ∃ rr ∈ fixB7.rows, rr.cells = lr.cells))).map Row.cells ∧
      (∀ i row, out.rows.get? i = some row →
        ∃ a, fixA7.rows.get? i = some a ∧ row.prov = a.prov)) :=
  ⟨(c7_difference_rows_and_positional_prov fixA7 fixY).1 (by decide),
   (c7_difference_rows_and_positional_prov fixA7 fixB7).2 rfl⟩

end RAedu
namespace RAedu

/-- C5 amended: projection, union, intersection and division always emit
duplicate-free relations under schema-tuple equality; difference preserves
the duplicates of its left input, so its output is duplicate-free exactly
when the left input is. -/
theorem c5_set_result_operators_nodup :
    (∀ (attrs : List String) (A : DF) out, projectionE attrs A = Except.ok out →
      (out.rows.map Row.cells).Nodup) ∧
    (∀ (A B : DF) out, unionE A B = Except.ok out → (out.rows.map Row.cells).Nodup) ∧
    (∀ (A B : DF) out, intersectionE A B = Except.ok out → (out.rows.map Row.cells).Nodup) ∧
    (∀ (A B : DF) out, divisionE A B = Except.ok out → (out.rows.map Row.cells).Nodup) ∧
    (∀ (A B : DF) out, (A.rows.map Row.cells).Nodup → differenceE A B = Except.ok out →
      (out.rows.map Row.cells).Nodup) := by
  refine ⟨?_, ?_, ?_, ?_, ?_⟩
  · intro attrs A out h
    rw [projectionE] at h
    split at h
    · cases h
      exact dedupAux_nodup _ _ _
    · cases h
  · intro A B out h
    rw [unionE] at h
    split at h
    · cases h
      exact dedupAux_nodup _ _ _
    · cases h
  · intro A B out h
    rw [intersectionE] at h
    split at h
    · cases h
      exact dedupAux_nodup _ _ _
    · cases h
  · intro A B out h
    rw [divisionE] at h
    split at h
    · by_cases hqe : (A.cols.filter (fun c => decide (c ∉ B.cols))).isEmpty
      · rw [divisionDF, if_pos hqe] at h
        cases h
      · obtain ⟨out0, hdd, hcols, hal, hrows⟩ :=
          divisionDF_rows A B (A.cols.filter (fun c => decide (c ∉ B.cols))) B.cols
            (Bool.not_eq_true _ ▸ (by simpa using hqe))
        rw [hdd] at h
        cases h
        simp only [hrows, List.map_map]
        have hcomp : (Row.cells ∘ fun q => Row.mk q (provFor A
            (A.cols.filter (fun c => decide (c ∉ B.cols))) q)) = id := rfl
        rw [hcomp, List.map_id]
        have hnd : (dropDupL (A.rows.map (fun a => projCells A.cols a
            (A.cols.filter (fun c => decide (c ∉ B.cols)))))).Nodup := by
          have := dedupAux_nodup id []
            (A.rows.map (fun a => projCells A.cols a
              (A.cols.filter (fun c => decide (c ∉ B.cols)))))
          simpa [dropDupL] using this
        split
        · exact hnd
        · exact hnd.filter _
    · cases h
  · intro A B out hnd h
    rw [differenceE] at h
    split at h
    · cases h
      rw [zipWith_cells_of_le _ _ (List.length_filter_le _ _)]
      exact hnd.sublist ((List.filter_sublist _).map Row.cells)
    · cases h

theorem c5_set_result_witness :
    ((∃ out, projectionE ["x"] fixA5 = Except.ok out ∧ (out.rows.map Row.cells).Nodup) ∧
     (∃ out, unionE fixA4 fixB4 = Except.ok out ∧ (out.rows.map Row.cells).Nodup) ∧
     (∃ out, intersectionE fixA4 fixB4 = Except.ok out ∧ (out.rows.map Row.cells).Nodup) ∧
     (∃ out, divisionE fixDiv fixReq = Except.ok out ∧ (out.rows.map Row.cells).Nodup) ∧
     (∃ out, differenceE fixA7 fixB7 = Except.ok out ∧ (out.rows.map Row.cells).Nodup)) := by
  refine ⟨⟨_, rfl, c5_set_result_operators_nodup.1 ["x"] fixA5 _ rfl⟩,
          ⟨_, rfl, c5_set_result_operators_nodup.2.1 fixA4 fixB4 _ rfl⟩,
          ⟨_, rfl, c5_set_result_operators_nodup.2.2.1 fixA4 fixB4 _ rfl⟩,
          ⟨_, rfl, c5_set_result_operators_nodup.2.2.2.1 fixDiv fixReq _ rfl⟩,
          ⟨_, rfl, c5_set_result_operators_nodup.2.2.2.2 fixA7 fixB7 _ (by decide) rfl⟩⟩

end RAedu
namespace RAedu

theorem mem_dropDupL_iff (l : List (List Value)) (x : List Value) :
    x ∈ dropDupL l ↔ x ∈ l := by
  constructor
  · intro h
    exact dedupAux_subset id [] l x h
  · intro h
    obtain ⟨q, hq, he⟩ := dedupAux_keys_covered id [] l x h (by simp)
    exact (show q = x from he) ▸ hq

theorem dropDupL_eq_nil_iff (l : List (List Value)) : dropDupL l = [] ↔ l = [] := by
  cases l with
  | nil => simp [dropDupL, dedupAux]
  | cons x xs => simp [dropDupL, dedupAux]

theorem mem_map_mk_cells (l : List (List Value)) (f : List Value → List (String × Nat))
    (q : List Value) :
    (∃ row ∈ l.map (fun x => Row.mk x (f x)), row.cells = q) ↔ q ∈ l := by
  constructor
  · rintro ⟨row, hrow, rfl⟩
    obtain ⟨x, hx, rfl⟩ := List.mem_map.mp hrow
    exact hx
  · intro h
    exact ⟨Row.mk q (f q), List.mem_map.mpr ⟨q, h, rfl⟩, rfl⟩

theorem projCells_append (cols : List String) (r : Row) (x y : List String) :
    projCells cols r (x ++ y) = projCells cols r x ++ projCells cols r y := by
  simp [projCells]

theorem projCells_length (cols : List String) (r : Row) (attrs : List String) :
    (projCells cols r attrs).length = attrs.length := by
  simp [projCells]

/-- C6: division (with divisor schema contained in the dividend schema and a
non-empty quotient) returns exactly the quotient projections q of A such
that every divisor row r has the combined row (q, r) in A; consequently the
product of the quotient with B is contained in A, the quotient is the
largest such relation when B is non-empty, and an empty divisor yields the
full (deduplicated) quotient projection of A. -/
theorem c6_division_characterisation (A B : DF)
    (hsub : ∀ c ∈ B.cols, c ∈ A.cols)
    (hq : (A.cols.filter (fun c => c ∉ B.cols)).isEmpty = false) :
    ∃ out, divisionE A B = Except.ok out ∧
      out.cols = A.cols.filter (fun c => c ∉ B.cols) ∧
      (∀ q, (∃ row ∈ out.rows, row.cells = q) ↔
        ((∃ a ∈ A.rows, projCells A.cols a (A.cols.filter (fun c => c ∉ B.cols)) = q) ∧
         ∀ b ∈ B.rows, ∃ a ∈ A.rows,
           projCells A.cols a (A.cols.filter (fun c => c ∉ B.cols)) = q ∧
           projCells A.cols a B.cols = projCells B.cols b B.cols)) ∧
      (∀ row ∈ out.rows, ∀ b ∈ B.rows, ∃ a ∈ A.rows,
        projCells A.cols a (A.cols.filter (fun c => c ∉ B.cols)) = row.cells ∧
        projCells A.cols a B.cols = projCells B.cols b B.cols) ∧
      (B.rows ≠ [] → ∀ q,
        (∀ b ∈ B.rows, ∃ a ∈ A.rows,
          projCells A.cols a (A.cols.filter (fun c => c ∉ B.cols)) = q ∧
          projCells A.cols a B.cols = projCells B.cols b B.cols) →
        ∃ row ∈ out.rows, row.cells = q) ∧
      (B.rows = [] → out.rows.map Row.cells =
        dropDupL (A.rows.map
          (fun a => projCells A.cols a (A.cols.filter (fun c => c ∉ B.cols))))) := by
  have hall : (B.cols.all (fun c => c ∈ A.cols)) = true := by
    rw [List.all_eq_true]
    intro c hc
    simpa using hsub c hc
  obtain ⟨out0, hdd, hcols, hal, hrows⟩ :=
    divisionDF_rows A B (A.cols.filter (fun c => decide (c ∉ B.cols))) B.cols hq
  have hout : divisionE A B =
      Except.ok { cols := out0.cols, rows := out0.rows,
                  aliases := filterAliases A.aliases (out0.cols ++ ["_prov"]) } := by
    rw [divisionE, if_pos hall, hdd]
  -- the membership characterisation, shared by the remaining conjuncts
  have hmem : ∀ q, (∃ row ∈ out0.rows, row.cells = q) ↔
      ((∃ a ∈ A.rows, projCells A.cols a (A.cols.filter (fun c => c ∉ B.cols)) = q) ∧
       ∀ b ∈ B.rows, ∃ a ∈ A.rows,
         projCells A.cols a (A.cols.filter (fun c => c ∉ B.cols)) = q ∧
         projCells A.cols a B.cols = projCells B.cols b B.cols) := by
    intro q
    rw [hrows, mem_map_mk_cells]
    by_cases hbe : B.rows = []
    · rw [hbe]
      simp only [List.map_nil]
      rw [if_pos (by simp [dropDupL, dedupAux])]
      rw [mem_dropDupL_iff]
      constructor
      · intro h
        obtain ⟨a, ha, he⟩ := List.mem_map.mp h
        exact ⟨⟨a, ha, he⟩, by intro b hb; simp at hb⟩
      · rintro ⟨⟨a, ha, he⟩, _⟩
        exact List.mem_map.mpr ⟨a, ha, he⟩
    · have hne : (dropDupL (B.rows.map (fun b => projCells B.cols b B.cols))).isEmpty = false := by
        rcases List.exists_cons_of_ne_nil hbe with ⟨b, bs, hb⟩
        rw [hb]
        simp [dropDupL, dedupAux]
      rw [if_neg (by simp [hne])]
      rw [List.mem_filter]
      rw [mem_dropDupL_iff]
      constructor
      · rintro ⟨hcand, hpred⟩
        obtain ⟨a0, ha0, he0⟩ := List.mem_map.mp hcand
        refine ⟨⟨a0, ha0, he0⟩, ?_⟩
        intro b hb
        have hrmem : projCells B.cols b B.cols ∈
            dropDupL (B.rows.map (fun b => projCells B.cols b B.cols)) :=
          (mem_dropDupL_iff _ _).mpr (List.mem_map.mpr ⟨b, hb, rfl⟩)
        have := List.all_eq_true.mp hpred _ hrmem
        have hact : q ++ projCells B.cols b B.cols ∈
            dropDupL (A.rows.map (fun a => projCells A.cols a
              (A.cols.filter (fun c => decide (c ∉ B.cols)) ++ B.cols))) := by
          simpa using this
        have hact' := (mem_dropDupL_iff _ _).mp hact
        obtain ⟨a, ha, hea⟩ := List.mem_map.mp hact'
        rw [projCells_append] at hea
        have hsplit := List.append_inj hea.symm
          (by rw [← he0, projCells_length, projCells_length])
        exact ⟨a, ha, hsplit.1.symm, hsplit.2.symm⟩
      · rintro ⟨⟨a0, ha0, he0⟩, hforall⟩
        constructor
        · exact List.mem_map.mpr ⟨a0, ha0, he0⟩
        · rw [List.all_eq_true]
          intro r hr
          have hr' := (mem_dropDupL_iff _ _).mp hr
          obtain ⟨b, hb, heb⟩ := List.mem_map.mp hr'
          obtain ⟨a, ha, he1, he2⟩ := hforall b hb
          have : q ++ r = projCells A.cols a
              (A.cols.filter (fun c => decide (c ∉ B.cols)) ++ B.cols) := by
            rw [projCells_append, he1, he2, heb]
          rw [this]
          simpa using (mem_dropDupL_iff _ _).mpr
            (List.mem_map.mpr ⟨a, ha, rfl⟩)
  refine ⟨_, hout, by simpa using hcols, ?_, ?_, ?_, ?_⟩
  · intro q
    simpa using hmem q
  · intro row hrow b hb
    have := (hmem row.cells).mp ⟨row, by simpa using hrow, rfl⟩
    exact this.2 b hb
  · intro hbne q hforall
    rcases List.exists_cons_of_ne_nil hbne with ⟨b0, bs, hb0⟩
    obtain ⟨a0, ha0, he0, _⟩ := hforall b0 (by rw [hb0]; exact List.mem_cons_self _ _)
    have := (hmem q).mpr ⟨⟨a0, ha0, he0⟩, hforall⟩
    simpa using this
  · intro hbe
    have : out0.rows.map Row.cells =
        dropDupL (A.rows.map (fun a => projCells A.cols a
          (A.cols.filter (fun c => decide (c ∉ B.cols))))) := by
      rw [hrows, hbe]
      simp only [List.map_nil]
      rw [if_pos (by simp [dropDupL, dedupAux])]
      rw [List.map_map]
      have hcomp : (Row.cells ∘ fun q => Row.mk q (provFor A
          (A.cols.filter (fun c => decide (c ∉ B.cols))) q)) = id := rfl
      rw [hcomp, List.map_id]
    simpa using this

end RAedu
namespace RAedu

theorem c6_division_witness :
    ∃ out, divisionE fixDiv fixReq = Except.ok out ∧
      out.cols = fixDiv.cols.filter (fun c => c ∉ fixReq.cols) ∧
      (∀ q, (∃ row ∈ out.rows, row.cells = q) ↔
        ((∃ a ∈ fixDiv.rows,
            projCells fixDiv.cols a (fixDiv.cols.filter (fun c => c ∉ fixReq.cols)) = q) ∧
         ∀ b ∈ fixReq.rows, ∃ a ∈ fixDiv.rows,
           projCells fixDiv.cols a (fixDiv.cols.filter (fun c => c ∉ fixReq.cols)) = q ∧
           projCells fixDiv.cols a fixReq.cols = projCells fixReq.cols b fixReq.cols)) ∧
      (∀ row ∈ out.rows, ∀ b ∈ fixReq.rows, ∃ a ∈ fixDiv.rows,
        projCells fixDiv.cols a (fixDiv.cols.filter (fun c => c ∉ fixReq.cols)) = row.cells ∧
        projCells fixDiv.cols a fixReq.cols = projCells fixReq.cols b fixReq.cols) ∧
      (fixReq.rows ≠ [] → ∀ q,
        (∀ b ∈ fixReq.rows, ∃ a ∈ fixDiv.rows,
          projCells fixDiv.cols a (fixDiv.cols.filter (fun c => c ∉ fixReq.cols)) = q ∧
          projCells fixDiv.cols a fixReq.cols = projCells fixReq.cols b fixReq.cols) →
        ∃ row ∈ out.rows, row.cells = q) ∧
      (fixReq.rows = [] → out.rows.map Row.cells =
        dropDupL (fixDiv.rows.map
          (fun a => projCells fixDiv.cols a
            (fixDiv.cols.filter (fun c => c ∉ fixReq.cols))))) :=
  c6_division_characterisation fixDiv fixReq (by decide) (by decide)

end RAedu
namespace RAedu

theorem evalPy_congr (e : PyExpr) (env1 env2 : Env)
    (h : ∀ k ∈ exprKeys e, dget env1 k = dget env2 k) :
    evalPy env1 e = evalPy env2 e := by
  induction e with
  | lit v => rfl
  | envGet k => simp [evalPy, h k (by simp [exprKeys])]
  | unNot e ih => simp [evalPy, ih (fun k hk => h k (by simpa [exprKeys] using hk))]
  | unNeg e ih => simp [evalPy, ih (fun k hk => h k (by simpa [exprKeys] using hk))]
  | orE l r ihl ihr =>
    simp [evalPy,
      ihl (fun k hk => h k (by simp [exprKeys]; exact Or.inl hk)),
      ihr (fun k hk => h k (by simp [exprKeys]; exact Or.inr hk))]
  | andE l r ihl ihr =>
    simp [evalPy,
      ihl (fun k hk => h k (by simp [exprKeys]; exact Or.inl hk)),
      ihr (fun k hk => h k (by simp [exprKeys]; exact Or.inr hk))]
  | cmpE op l r ihl ihr =>
    simp [evalPy,
      ihl (fun k hk => h k (by simp [exprKeys]; exact Or.inl hk)),
      ihr (fun k hk => h k (by simp [exprKeys]; exact Or.inr hk))]
  | addE l r ihl ihr =>
    simp [evalPy,
      ihl (fun k hk => h k (by simp [exprKeys]; exact Or.inl hk)),
      ihr (fun k hk => h k (by simp [exprKeys]; exact Or.inr hk))]
  | subE l r ihl ihr =>
    simp [evalPy,
      ihl (fun k hk => h k (by simp [exprKeys]; exact Or.inl hk)),
      ihr (fun k hk => h k (by simp [exprKeys]; exact Or.inr hk))]
  | mulE l r ihl ihr =>
    simp [evalPy,
      ihl (fun k hk => h k (by simp [exprKeys]; exact Or.inl hk)),
      ihr (fun k hk => h k (by simp [exprKeys]; exact Or.inr hk))]

theorem lexNumF_keys (fuel : Nat) (acc : Nat) (ts : List PyTok) :
    pytokKeys (lexNumF fuel acc ts).2 = pytokKeys ts := by
  induction fuel generalizing acc ts with
  | zero => rfl
  | succ f ih =>
    cases ts with
    | nil => rfl
    | cons t ts' =>
      cases t with
      | ch c =>
        rw [lexNumF]
        split
        · rw [ih]
          simp [pytokKeys]
        · rfl
      | strLit q b cl => rfl
      | envGet k => rfl
      | kw s => rfl

end RAedu
namespace RAedu

theorem chTail_keys (ts : List PyTok) (h : chHeadEq ts = true) :
    pytokKeys (chTail ts) = pytokKeys ts := by
  cases ts with
  | nil => rfl
  | cons t ts' =>
    cases t with
    | ch c => simp [chTail, pytokKeys]
    | strLit q b cl => simp [chHeadEq] at h
    | envGet k => simp [chHeadEq] at h
    | kw s => simp [chHeadEq] at h

theorem pyLexF_keys (fuel : Nat) :
    ∀ (ptoks : List PyTok) (toks : List Tok), pyLexF fuel ptoks = some toks →
      ∀ k ∈ tokKeys toks, k ∈ pytokKeys ptoks := by
  induction fuel with
  | zero => intro ptoks toks h; cases h
  | succ f ih =>
    intro ptoks toks h
    cases ptoks with
    | nil =>
      cases h
      simp [tokKeys]
    | cons t ts =>
      cases t with
      | strLit q body closed =>
        rw [pyLexF] at h
        by_cases hc : closed = true
        · rw [if_pos hc] at h
          obtain ⟨l, hl, rfl⟩ := Option.map_eq_some'.mp h
          intro k hk
          simp only [tokKeys, List.filterMap_cons] at hk ⊢
          simp only [pytokKeys, List.filterMap_cons]
          exact ih ts l hl k hk
        · rw [if_neg hc] at h; cases h
      | envGet key =>
        rw [pyLexF] at h
        obtain ⟨l, hl, rfl⟩ := Option.map_eq_some'.mp h
        intro k hk
        simp only [tokKeys, List.filterMap_cons] at hk
        simp only [pytokKeys, List.filterMap_cons]
        rcases List.mem_cons.mp hk with hk | hk
        · exact hk ▸ List.mem_cons_self _ _
        · exact List.mem_cons_of_mem _ (ih ts l hl k hk)
      | kw s =>
        rw [pyLexF] at h
        intro k hk
        simp only [pytokKeys, List.filterMap_cons]
        repeat' split at h
        all_goals
          first
          | cases h
          | (obtain ⟨l, hl, rfl⟩ := Option.map_eq_some'.mp h
             simp only [tokKeys, List.filterMap_cons] at hk
             exact ih ts l hl k hk)
      | ch c =>
        rw [pyLexF] at h
        intro k hk
        simp only [pytokKeys, List.filterMap_cons]
        by_cases h1 : isSpaceChar c = true
        · rw [if_pos h1] at h
          exact ih ts toks h k hk
        rw [if_neg h1] at h
        by_cases h2 : c.isDigit = true
        · rw [if_pos h2] at h
          obtain ⟨l, hl, rfl⟩ := Option.map_eq_some'.mp h
          simp only [tokKeys, List.filterMap_cons] at hk
          have hmem := ih _ l hl k hk
          rw [lexNumF_keys f (digitVal c) ts] at hmem
          exact hmem
        rw [if_neg h2] at h
        by_cases h3 : (c == '=') = true
        · rw [if_pos h3] at h
          by_cases hh : chHeadEq ts = true
          · rw [if_pos hh] at h
            obtain ⟨l, hl, rfl⟩ := Option.map_eq_some'.mp h
            simp only [tokKeys, List.filterMap_cons] at hk
            have hmem := ih _ l hl k hk
            rw [chTail_keys ts hh] at hmem
            exact hmem
          · rw [if_neg hh] at h
            cases h
        rw [if_neg h3] at h
        by_cases h4 : (c == '!') = true
        · rw [if_pos h4] at h
          by_cases hh : chHeadEq ts = true
          · rw [if_pos hh] at h
            obtain ⟨l, hl, rfl⟩ := Option.map_eq_some'.mp h
            simp only [tokKeys, List.filterMap_cons] at hk
            have hmem := ih _ l hl k hk
            rw [chTail_keys ts hh] at hmem
            exact hmem
          · rw [if_neg hh] at h
            cases h
        rw [if_neg h4] at h
        by_cases h5 : (c == '<') = true
        · rw [if_pos h5] at h
          by_cases hh : chHeadEq ts = true
          · rw [if_pos hh] at h
            obtain ⟨l, hl, rfl⟩ := Option.map_eq_some'.mp h
            simp only [tokKeys, List.filterMap_cons] at hk
            have hmem := ih _ l hl k hk
            rw [chTail_keys ts hh] at hmem
            exact hmem
          · rw [if_neg hh] at h
            obtain ⟨l, hl, rfl⟩ := Option.map_eq_some'.mp h
            simp only [tokKeys, List.filterMap_cons] at hk
            exact ih ts l hl k hk
        rw [if_neg h5] at h
        by_cases h6 : (c == '>') = true
        · rw [if_pos h6] at h
          by_cases hh : chHeadEq ts = true
          · rw [if_pos hh] at h
            obtain ⟨l, hl, rfl⟩ := Option.map_eq_some'.mp h
            simp only [tokKeys, List.filterMap_cons] at hk
            have hmem := ih _ l hl k hk
            rw [chTail_keys ts hh] at hmem
            exact hmem
          · rw [if_neg hh] at h
            obtain ⟨l, hl, rfl⟩ := Option.map_eq_some'.mp h
            simp only [tokKeys, List.filterMap_cons] at hk
            exact ih ts l hl k hk
        rw [if_neg h6] at h
        by_cases h7 : (c == '(') = true
        · rw [if_pos h7] at h
          obtain ⟨l, hl, rfl⟩ := Option.map_eq_some'.mp h
          simp only [tokKeys, List.filterMap_cons] at hk
          exact ih ts l hl k hk
        rw [if_neg h7] at h
        by_cases h8 : (c == ')') = true
        · rw [if_pos h8] at h
          obtain ⟨l, hl, rfl⟩ := Option.map_eq_some'.mp h
          simp only [tokKeys, List.filterMap_cons] at hk
          exact ih ts l hl k hk
        rw [if_neg h8] at h
        by_cases h9 : (c == '+') = true
        · rw [if_pos h9] at h
          obtain ⟨l, hl, rfl⟩ := Option.map_eq_some'.mp h
          simp only [tokKeys, List.filterMap_cons] at hk
          exact ih ts l hl k hk
        rw [if_neg h9] at h
        by_cases h10 : (c == '-') = true
        · rw [if_pos h10] at h
          obtain ⟨l, hl, rfl⟩ := Option.map_eq_some'.mp h
          simp only [tokKeys, List.filterMap_cons] at hk
          exact ih ts l hl k hk
        rw [if_neg h10] at h
        by_cases h11 : (c == '*') = true
        · rw [if_pos h11] at h
          obtain ⟨l, hl, rfl⟩ := Option.map_eq_some'.mp h
          simp only [tokKeys, List.filterMap_cons] at hk
          exact ih ts l hl k hk
        rw [if_neg h11] at h
        cases h
end RAedu
namespace RAedu

theorem tokKeys_tail (ts : List Tok) : ∀ k ∈ tokKeys (tokTail ts), k ∈ tokKeys ts := by
  cases ts with
  | nil => intro k hk; exact hk
  | cons t r =>
    intro k hk
    have hk2 : k ∈ tokKeys r := hk
    simp only [tokKeys, List.filterMap_cons]
    cases t
    case envGet key => exact List.mem_cons_of_mem _ hk2
    all_goals exact hk2

theorem binInfo_keys (t : Tok) (prec : Nat) (mk : PyExpr → PyExpr → PyExpr)
    (hb : binInfo t = some (prec, mk)) (a b : PyExpr) :
    exprKeys (mk a b) = exprKeys a ++ exprKeys b := by
  cases t <;> simp only [binInfo, Option.some.injEq, Prod.mk.injEq] at hb <;>
    obtain ⟨h1, h2⟩ := hb <;> subst h2 <;> simp [exprKeys]

theorem parseP_keys (fuel : Nat) :
    ∀ (minPrec : Nat) (acc : Option PyExpr) (ts : List Tok) (e : PyExpr) (rest : List Tok),
      parseP fuel minPrec acc ts = some (e, rest) →
      (∀ k ∈ exprKeys e, k ∈ accKeys acc ∨ k ∈ tokKeys ts) ∧
      (∀ k ∈ tokKeys rest, k ∈ tokKeys ts) := by
  induction fuel with
  | zero => intro _ _ _ _ _ h; cases h
  | succ f ih =>
    intro minPrec acc ts e rest h
    cases acc with
    | some e0 =>
      cases ts with
      | nil =>
        rw [parseP] at h
        obtain ⟨rfl, rfl⟩ := Prod.mk.injEq .. ▸ (Option.some.inj h)
        exact ⟨fun k hk => Or.inl hk, fun k hk => hk⟩
      | cons t r =>
        rw [parseP] at h
        cases hb : binInfo t with
        | none =>
          rw [hb] at h
          obtain ⟨rfl, rfl⟩ := Prod.mk.injEq .. ▸ (Option.some.inj h)
          exact ⟨fun k hk => Or.inl hk, fun k hk => hk⟩
        | some pm =>
          obtain ⟨prec, mk⟩ := pm
          rw [hb] at h
          have hif : (if minPrec ≤ prec then
              match parseP f (prec + 1) Option.none r with
              | some (rhs, r1) => parseP f minPrec (some (mk e0 rhs)) r1
              | Option.none => Option.none
            else some (e0, t :: r)) = some (e, rest) := h
          clear h
          by_cases hp : minPrec ≤ prec
          · rw [if_pos hp] at hif
            cases hr : parseP f (prec + 1) Option.none r with
            | none =>
              rw [hr] at hif
              cases hif
            | some pr =>
              obtain ⟨rhs, r1⟩ := pr
              rw [hr] at hif
              have h' : parseP f minPrec (some (mk e0 rhs)) r1 = some (e, rest) := hif
              obtain ⟨hk1, hr1⟩ := ih (prec + 1) Option.none r rhs r1 hr
              obtain ⟨hk2, hr2⟩ := ih minPrec (some (mk e0 rhs)) r1 e rest h'
              have hts : ∀ k ∈ tokKeys r, k ∈ tokKeys (t :: r) := by
                intro k hk
                simp only [tokKeys, List.filterMap_cons]
                cases t
                case envGet key => exact List.mem_cons_of_mem _ hk
                all_goals exact hk
              constructor
              · intro k hk
                rcases hk2 k hk with hacc | hrest
                · rw [accKeys, binInfo_keys t prec mk hb] at hacc
                  rcases List.mem_append.mp hacc with h1 | h1
                  · exact Or.inl h1
                  · rcases hk1 _ h1 with h2 | h2
                    · simp [accKeys] at h2
                    · exact Or.inr (hts _ h2)
                · exact Or.inr (hts _ (hr1 _ hrest))
              · intro k hk
                exact hts _ (hr1 _ (hr2 _ hk))
          · rw [if_neg hp] at hif
            obtain ⟨rfl, rfl⟩ := Prod.mk.injEq .. ▸ (Option.some.inj hif)
            exact ⟨fun k hk => Or.inl hk, fun k hk => hk⟩
    | none =>
      cases ts with
      | nil =>
        rw [parseP] at h
        · cases h
        all_goals simp
      | cons t r =>
        cases t with
        | kwNot =>
          rw [parseP] at h
          cases hp : parseP f 3 Option.none r with
          | none => rw [hp] at h; cases h
          | some pr =>
            obtain ⟨e1, r1⟩ := pr
            rw [hp] at h
            have h' : parseP f minPrec (some (PyExpr.unNot e1)) r1 = some (e, rest) := h
            obtain ⟨hk1, hr1⟩ := ih 3 Option.none r e1 r1 hp
            obtain ⟨hk2, hr2⟩ := ih minPrec (some (PyExpr.unNot e1)) r1 e rest h'
            constructor
            · intro k hk
              rcases hk2 k hk with hacc | hrest
              · simp only [accKeys, exprKeys] at hacc
                rcases hk1 _ hacc with h2 | h2
                · simp [accKeys] at h2
                · exact Or.inr h2
              · exact Or.inr (hr1 _ hrest)
            · intro k hk
              exact hr1 _ (hr2 _ hk)
        | opSub =>
          rw [parseP] at h
          cases hp : parseP f 7 Option.none r with
          | none => rw [hp] at h; cases h
          | some pr =>
            obtain ⟨e1, r1⟩ := pr
            rw [hp] at h
            have h' : parseP f minPrec (some (PyExpr.unNeg e1)) r1 = some (e, rest) := h
            obtain ⟨hk1, hr1⟩ := ih 7 Option.none r e1 r1 hp
            obtain ⟨hk2, hr2⟩ := ih minPrec (some (PyExpr.unNeg e1)) r1 e rest h'
            constructor
            · intro k hk
              rcases hk2 k hk with hacc | hrest
              · simp only [accKeys, exprKeys] at hacc
                rcases hk1 _ hacc with h2 | h2
                · simp [accKeys] at h2
                · exact Or.inr h2
              · exact Or.inr (hr1 _ hrest)
            · intro k hk
              exact hr1 _ (hr2 _ hk)
        | lparen =>
          rw [parseP] at h
          cases hp : parseP f 0 Option.none r with
          | none => rw [hp] at h; cases h
          | some pr =>
            obtain ⟨e1, r1⟩ := pr
            rw [hp] at h
            have hif : (if isRparen r1 = true then
                parseP f minPrec (some e1) (tokTail r1)
              else Option.none) = some (e, rest) := h
            clear h
            by_cases hrp : isRparen r1 = true
            · rw [if_pos hrp] at hif
              have h' : parseP f minPrec (some e1) (tokTail r1) = some (e, rest) := hif
              obtain ⟨hk1, hr1⟩ := ih 0 Option.none r e1 r1 hp
              obtain ⟨hk2, hr2⟩ := ih minPrec (some e1) (tokTail r1) e rest h'
              constructor
              · intro k hk
                rcases hk2 k hk with hacc | hrest
                · simp only [accKeys] at hacc
                  rcases hk1 _ hacc with h2 | h2
                  · simp [accKeys] at h2
                  · exact Or.inr h2
                · exact Or.inr (hr1 _ (tokKeys_tail r1 _ hrest))
              · intro k hk
                exact hr1 _ (tokKeys_tail r1 _ (hr2 _ hk))
            · rw [if_neg hrp] at hif
              cases hif
        | intLit n =>
          rw [parseP] at h
          have h' : parseP f minPrec (some (PyExpr.lit (Value.int (Int.ofNat n)))) r =
              some (e, rest) := h
          obtain ⟨hk2, hr2⟩ := ih minPrec _ r e rest h'
          refine ⟨fun k hk => ?_, fun k hk => hr2 _ hk⟩
          rcases hk2 k hk with hacc | hrest
          · simp [accKeys, exprKeys] at hacc
          · exact Or.inr hrest
        | strLit sv =>
          rw [parseP] at h
          have h' : parseP f minPrec (some (PyExpr.lit (Value.str sv))) r = some (e, rest) := h
          obtain ⟨hk2, hr2⟩ := ih minPrec _ r e rest h'
          refine ⟨fun k hk => ?_, fun k hk => hr2 _ hk⟩
          rcases hk2 k hk with hacc | hrest
          · simp [accKeys, exprKeys] at hacc
          · exact Or.inr hrest
        | kwTrue =>
          rw [parseP] at h
          have h' : parseP f minPrec (some (PyExpr.lit (Value.bool true))) r = some (e, rest) := h
          obtain ⟨hk2, hr2⟩ := ih minPrec _ r e rest h'
          refine ⟨fun k hk => ?_, fun k hk => hr2 _ hk⟩
          rcases hk2 k hk with hacc | hrest
          · simp [accKeys, exprKeys] at hacc
          · exact Or.inr hrest
        | kwFalse =>
          rw [parseP] at h
          have h' : parseP f minPrec (some (PyExpr.lit (Value.bool false))) r = some (e, rest) := h
          obtain ⟨hk2, hr2⟩ := ih minPrec _ r e rest h'
          refine ⟨fun k hk => ?_, fun k hk => hr2 _ hk⟩
          rcases hk2 k hk with hacc | hrest
          · simp [accKeys, exprKeys] at hacc
          · exact Or.inr hrest
        | envGet key =>
          rw [parseP] at h
          have h' : parseP f minPrec (some (PyExpr.envGet key)) r = some (e, rest) := h
          obtain ⟨hk2, hr2⟩ := ih minPrec _ r e rest h'
          have hcons : ∀ k, k ∈ tokKeys r → k ∈ tokKeys (Tok.envGet key :: r) := by
            intro k hk
            simp only [tokKeys, List.filterMap_cons]
            exact List.mem_cons_of_mem _ hk
          refine ⟨fun k hk => ?_, fun k hk => hcons _ (hr2 _ hk)⟩
          rcases hk2 k hk with hacc | hrest
          · simp only [accKeys, exprKeys, List.mem_singleton] at hacc
            subst hacc
            refine Or.inr ?_
            simp [tokKeys, List.filterMap_cons]
          · exact Or.inr (hcons _ hrest)
        | kwAnd =>
          rw [parseP] at h
          · cases h
          all_goals simp
        | kwOr =>
          rw [parseP] at h
          · cases h
          all_goals simp
        | opEq =>
          rw [parseP] at h
          · cases h
          all_goals simp
        | opNe =>
          rw [parseP] at h
          · cases h
          all_goals simp
        | opLt =>
          rw [parseP] at h
          · cases h
          all_goals simp
        | opLe =>
          rw [parseP] at h
          · cases h
          all_goals simp
        | opGt =>
          rw [parseP] at h
          · cases h
          all_goals simp
        | opGe =>
          rw [parseP] at h
          · cases h
          all_goals simp
        | opAdd =>
          rw [parseP] at h
          · cases h
          all_goals simp
        | opMul =>
          rw [parseP] at h
          · cases h
          all_goals simp
        | rparen =>
          rw [parseP] at h
          · cases h
          all_goals simp

end RAedu
namespace RAedu

theorem condEval_env_congr (cond : String) (env1 env2 : Env)
    (h : ∀ k ∈ condKeys cond, dget (lowerKeys env1) k = dget (lowerKeys env2) k) :
    condEval cond env1 = condEval cond env2 := by
  simp only [condEval]
  cases hlex : pyLexF (List.length (replaceIdentifiers (normalizeCond cond)) + 1)
      (replaceIdentifiers (normalizeCond cond)) with
  | none => rfl
  | some toks =>
    cases hparse : pyParse toks with
    | none => simp only [hparse]
    | some e =>
      have hkeys : ∀ k ∈ exprKeys e, dget (lowerKeys env1) k = dget (lowerKeys env2) k := by
        intro k hk
        apply h
        have hmemtok : k ∈ tokKeys toks := by
          unfold pyParse at hparse
          cases hp : parseP (4 * toks.length + 8) 0 Option.none toks with
          | none => rw [hp] at hparse; cases hparse
          | some pr =>
            obtain ⟨e1, rest⟩ := pr
            rw [hp] at hparse
            cases rest with
            | nil =>
              have he : e1 = e := Option.some.inj hparse
              subst he
              obtain ⟨hk1, _⟩ := parseP_keys _ _ _ _ _ _ hp
              rcases hk1 k hk with hacc | htok
              · simp [accKeys] at hacc
              · exact htok
            | cons t rest' =>
              have hno : (Option.none : Option PyExpr) = some e := hparse
              cases hno
        exact pyLexF_keys _ _ _ hlex k hmemtok
      simp only [hparse]
      rw [evalPy_congr e (lowerKeys env1) (lowerKeys env2) hkeys]

end RAedu
namespace RAedu

theorem dget_dinsert {α : Type} (m : List (String × α)) (k : String) (v : α) (x : String) :
    dget (dinsert m k v) x = if x = k then some v else dget m x := by
  induction m with
  | nil =>
    simp only [dinsert, dget]
    by_cases hx : x = k
    · subst hx
      simp
    · rw [if_neg (fun h => hx h.symm), if_neg hx]
  | cons p m ih =>
    obtain ⟨k1, v1⟩ := p
    by_cases h1 : k1 = k
    · subst h1
      simp only [dinsert, if_pos rfl, dget]
      by_cases hx : x = k1
      · subst hx
        simp
      · rw [if_neg (fun h => hx h.symm), if_neg hx, if_neg (fun h => hx h.symm)]
    · simp only [dinsert, if_neg h1, dget]
      by_cases hk1x : k1 = x
      · have hxk : ¬x = k := fun h => h1 (hk1x.symm ▸ h)
        rw [if_pos hk1x, if_neg hxk, if_pos hk1x]
      · rw [if_neg hk1x, ih]
        by_cases hxk : x = k
        · rw [if_pos hxk, if_pos hxk]
        · rw [if_neg hxk, if_neg hxk, if_neg hk1x]

theorem lookup_assoc_append {α : Type} (k : String) (l1 l2 : List (String × α)) :
    List.lookup k (l1 ++ l2) =
      match List.lookup k l1 with
      | some v => some v
      | Option.none => List.lookup k l2 := by
  induction l1 with
  | nil => simp [List.lookup]
  | cons p l ih =>
    obtain ⟨k1, v1⟩ := p
    by_cases h : k == k1
    · simp [List.lookup, h]
    · simp only [List.cons_append, List.lookup, h]
      exact ih

theorem dget_foldl_dinsert {α : Type} (ps : List (String × α)) (init : List (String × α))
    (k : String) :
    dget (ps.foldl (fun m p => dinsert m p.1 p.2) init) k =
      match List.lookup k ps.reverse with
      | some v => some v
      | Option.none => dget init k := by
  induction ps generalizing init with
  | nil => simp [List.lookup]
  | cons p rest ih =>
    obtain ⟨k1, v1⟩ := p
    simp only [List.foldl_cons, List.reverse_cons]
    rw [ih]
    rw [lookup_assoc_append]
    cases hl : List.lookup k rest.reverse with
    | some v => rfl
    | none =>
      simp only [List.lookup]
      by_cases hx : k = k1
      · subst hx
        simp [dget_dinsert]
      · have hbeq : (k == k1) = false := by simpa using hx
        rw [hbeq]
        rw [dget_dinsert]
        rw [if_neg hx]

theorem dget_lowerKeys (env : Env) (k : String) :
    dget (lowerKeys env) k =
      List.lookup k ((env.map (fun p => (strLower p.1, p.2))).reverse) := by
  have h1 : lowerKeys env =
      (env.map (fun p => (strLower p.1, p.2))).foldl (fun m p => dinsert m p.1 p.2) [] := by
    rw [List.foldl_map]
    rfl
  rw [h1, dget_foldl_dinsert]
  cases List.lookup k (env.map (fun p => (strLower p.1, p.2))).reverse with
  | some v => rfl
  | none => rfl

end RAedu
namespace RAedu

theorem strData_append (a b : String) : (a ++ b).data = a.data ++ b.data := by
  obtain ⟨la⟩ := a
  obtain ⟨lb⟩ := b
  rfl

theorem dot_mem_strLower (s : String) (h : '.' ∈ s.data) : '.' ∈ (strLower s).data := by
  simp only [strLower]
  exact List.mem_map.mpr ⟨'.', h, by decide⟩

theorem dot_mem_qualKey (al c : String) :
    '.' ∈ (strLower al ++ "." ++ strLower c).data := by
  rw [strData_append, strData_append]
  refine List.mem_append.mpr (Or.inl (List.mem_append.mpr (Or.inr ?_)))
  simp [String.data]

theorem lookup_lowered_dinsert (m : List (String × Value)) (q : String) (v : Value)
    (k : String) (hq : strLower q ≠ k) :
    List.lookup k ((dinsert m q v).map (fun p => (strLower p.1, p.2))).reverse =
      List.lookup k (m.map (fun p => (strLower p.1, p.2))).reverse := by
  induction m with
  | nil =>
    simp only [dinsert, List.map, List.reverse_cons, List.reverse_nil, List.nil_append]
    have hbeq : (k == strLower q) = false := by
      simp only [beq_eq_false_iff_ne, ne_eq]
      exact fun h => hq h.symm
    simp [List.lookup, hbeq]
  | cons p m ih =>
    obtain ⟨k1, v1⟩ := p
    by_cases h1 : k1 = q
    · subst h1
      simp only [dinsert, if_pos rfl, List.map, List.reverse_cons]
      rw [lookup_assoc_append, lookup_assoc_append]
      cases List.lookup k (m.map (fun p => (strLower p.1, p.2))).reverse with
      | some w => rfl
      | none =>
        have hne : (k == strLower k1) = false := by
          simpa using fun h => hq (by rw [h])
        simp [List.lookup, hne]
    · simp only [dinsert, if_neg h1, List.map, List.reverse_cons]
      rw [lookup_assoc_append, lookup_assoc_append, ih]

end RAedu
namespace RAedu

theorem foldl_dinsert_lower_congr (cols : List String) (g : String → Value)
    (hlow : ∀ c ∈ cols, strLower c = c) :
    ∀ init : Env, cols.foldl (fun env c => dinsert env (strLower c) (g c)) init =
      cols.foldl (fun env c => dinsert env c (g c)) init := by
  induction cols with
  | nil => intro init; rfl
  | cons c cols ih =>
    intro init
    simp only [List.foldl_cons]
    rw [hlow c (List.mem_cons_self _ _)]
    exact ih (fun c2 h2 => hlow c2 (List.mem_cons_of_mem _ h2)) _

theorem aliasInner_lookup (cols : List String) (r : Row) (al : String) (acs : List String) :
    ∀ (env : Env) (k : String), '.' ∉ k.data →
      List.lookup k
        (((acs.foldl (fun env c =>
            if c ∈ cols then dinsert env (strLower al ++ "." ++ strLower c) (getCell cols r c)
            else env) env)).map (fun p => (strLower p.1, p.2))).reverse =
      List.lookup k (env.map (fun p => (strLower p.1, p.2))).reverse := by
  induction acs with
  | nil => intro env k hk; rfl
  | cons c acs ih =>
    intro env k hk
    simp only [List.foldl_cons]
    rw [ih _ k hk]
    by_cases hc : c ∈ cols
    · rw [if_pos hc]
      apply lookup_lowered_dinsert
      intro he
      apply hk
      rw [← he]
      exact dot_mem_strLower _ (dot_mem_qualKey al c)
    · rw [if_neg hc]

theorem aliasFold_lookup (cols : List String) (r : Row)
    (als : List (String × List String)) :
    ∀ (base : Env) (k : String), '.' ∉ k.data →
      List.lookup k
        ((als.foldl (fun env p =>
            p.2.foldl (fun env c =>
              if c ∈ cols then dinsert env (strLower p.1 ++ "." ++ strLower c) (getCell cols r c)
              else env) env) base).map (fun p => (strLower p.1, p.2))).reverse =
      List.lookup k (base.map (fun p => (strLower p.1, p.2))).reverse := by
  induction als with
  | nil => intro base k hk; rfl
  | cons p als ih =>
    intro base k hk
    simp only [List.foldl_cons]
    rw [ih _ k hk]
    exact aliasInner_lookup cols r p.1 p.2 base k hk

theorem theta_env_agree (cols : List String) (aliases : List (String × List String))
    (r : Row) (hlow : ∀ c ∈ cols, strLower c = c) (k : String) (hk : '.' ∉ k.data) :
    dget (lowerKeys (envOfVis cols r)) k = dget (lowerKeys (rowEnv cols aliases r)) k := by
  rw [dget_lowerKeys, dget_lowerKeys]
  have hbase :
      (cols.foldl (fun env c => dinsert env (strLower c) (getCell cols r c)) ([] : Env)) =
        envOfVis cols r :=
    foldl_dinsert_lower_congr cols (getCell cols r) hlow []
  show _ = List.lookup k ((rowEnv cols aliases r).map (fun p => (strLower p.1, p.2))).reverse
  rw [rowEnv]
  rw [aliasFold_lookup cols r aliases _ k hk]
  rw [hbase]

/-- C3 amended: a θ-join equals the selection over the product — same
schema, same rows with the same provenance — whenever the condition refers
to no qualified (dotted) identifier and the product columns are lowercase
(as the data model guarantees at ingress); with a qualified name the
equivalence fails, because the θ-join row environment lacks the
alias-qualified bindings. -/
theorem c3_theta_equals_selection_unqualified (A B : DF) (cond : String)
    (hkeys : ∀ k ∈ condKeys cond, '.' ∉ k.data)
    (hlow : ∀ c ∈ (productDF A B).cols, strLower c = c) :
    (thetaJoin A B cond).cols = (selectionDF cond (productDF A B)).cols ∧
    (thetaJoin A B cond).rows = (selectionDF cond (productDF A B)).rows := by
  constructor
  · rfl
  · show (productDF A B).rows.filter
        (fun r => condEval cond (envOfVis (productDF A B).cols r)) =
      (productDF A B).rows.filter
        (fun r => condEval cond (rowEnv (productDF A B).cols (productDF A B).aliases r))
    apply List.filter_congr
    intro r _
    exact condEval_env_congr cond _ _
      (fun k hkmem => theta_env_agree _ _ r hlow k (hkeys k hkmem))

theorem c3_theta_selection_witness :
    (thetaJoin fixS fixT "a = 1").cols = (selectionDF "a = 1" (productDF fixS fixT)).cols ∧
    (thetaJoin fixS fixT "a = 1").rows = (selectionDF "a = 1" (productDF fixS fixT)).rows :=
  c3_theta_equals_selection_unqualified fixS fixT "a = 1" (by decide) (by decide)

end RAedu
